import Mathlib

/-!
Verification of the MegaLinter flavor generator (flavor_generator.py).

The development shallowly embeds the two core algorithms of the tool:

* `updateYamlDescriptors` models `update_yaml_descriptors` (the descriptor
  reconciliation sweep over YAML documents);
* `updateFlavorFactory` models `update_flavor_factory` (the textual patch of
  the flavor factory source file).

Strings are modelled as `List Char`; YAML documents as the inductive `YVal`;
a raised Python exception as `Except.error ()`; a YAML file whose load raises
as `none` in the store.
-/

set_option maxRecDepth 8192

namespace FlavorGen

/-! ### Character and substring machinery (Python `str` operations) -/

/-- Python whitespace class used both by `str.rstrip()` and by the regex
class in `update_flavor_factory`. -/
def isWsChar (c : Char) : Bool :=
  c == ' ' || c == '\t' || c == '\n' || c == '\r' || c == '\x0b' || c == '\x0c'

/-- The slice `s[p : p + n]` of a Python string. -/
def sliceAt (s : List Char) (p n : Nat) : List Char :=
  (s.drop p).take n

/-- `needle` occurs in `hay` starting at index `p` (the whole needle fits). -/
def OccursAt (needle hay : List Char) (p : Nat) : Prop :=
  p + needle.length ≤ hay.length ∧ sliceAt hay p needle.length = needle

/-- Boolean occurrence test at one position. -/
def occursAtB (needle hay : List Char) (p : Nat) : Bool :=
  decide (p + needle.length ≤ hay.length) &&
    decide (sliceAt hay p needle.length = needle)

/-- Scan upward from `p` for the first occurrence of `needle`. -/
def strIdxFromAux (needle hay : List Char) : Nat → Nat → Option Nat
  | 0, _ => none
  | fuel + 1, p =>
    if occursAtB needle hay p then some p
    else strIdxFromAux needle hay fuel (p + 1)

/-- Python `hay.index(needle, start)` / `needle in hay[start:]`: index of the
first occurrence of `needle` in `hay` at a position `≥ start`, if any. -/
def strIdxFrom (needle hay : List Char) (start : Nat) : Option Nat :=
  strIdxFromAux needle hay (hay.length + 1 - start) start

/-- Python `needle in hay` (substring containment). -/
def isSub (needle hay : List Char) : Bool :=
  (strIdxFrom needle hay 0).isSome

/-- Scan downward from `p` for the last occurrence of `needle`. -/
def rfindAux (needle hay : List Char) : Nat → Option Nat
  | 0 => if occursAtB needle hay 0 then some 0 else none
  | p + 1 => if occursAtB needle hay (p + 1) then some (p + 1)
             else rfindAux needle hay p

/-- Python `hay.rfind(needle)` restricted to the case where the needle occurs
(the caller of `rfind` in `update_flavor_factory` searches for a string that
was just found by `re.findall`, so Python's `-1` branch is unreachable). -/
def rfindSub (needle hay : List Char) : Option Nat :=
  rfindAux needle hay hay.length

/-- Python `s.rstrip(",\n")`: drop trailing characters drawn from the set. -/
def rstripIn (strip : List Char) (l : List Char) : List Char :=
  (l.reverse.dropWhile (fun c => strip.contains c)).reverse

/-- Python `s.rstrip()`: drop trailing whitespace. -/
def rstripWs (l : List Char) : List Char :=
  (l.reverse.dropWhile isWsChar).reverse

/-- The leading whitespace run of a string: `re.match(r'\s+', s)` gives
exactly this run when nonempty, and the code substitutes `''` otherwise. -/
def leadingWs (l : List Char) : List Char :=
  l.takeWhile isWsChar

/-! ### The regex `\s+".+?": {.+?},?\n` with `re.DOTALL`

For this particular pattern Python's backtracking is deterministic:

* `\s+` is greedy, but it is followed by the literal `"`, which is not a
  whitespace character, so only the maximal whitespace run can succeed;
* the first `.+?` is lazy, so the following literal `": {` is matched at its
  first possible position `≥` one character after the opening quote; if the
  rest of the pattern fails from there it fails from every later position as
  well (the set of viable `}`-positions only shrinks), so no backtracking
  into the lazy dot can ever succeed;
* the second `.+?` is lazy and `,?` is greedy, giving the scan in
  `tailScan`: the first `}` that is followed by `,\n` (preferred) or `\n`.
-/

/-- Scan `r = q+1, q+2, ...` for the first position holding `}` followed by
`,\n` or by `\n`; return the index one past the consumed `\n`. -/
def tailScanAux (s : List Char) : Nat → Nat → Option Nat
  | 0, _ => none
  | fuel + 1, r =>
    match s.get? r with
    | none => none
    | some c =>
      if c == '}' then
        match s.get? (r + 1), s.get? (r + 2) with
        | some ',', some '\n' => some (r + 3)
        | some '\n', _ => some (r + 2)
        | _, _ => tailScanAux s fuel (r + 1)
      else tailScanAux s fuel (r + 1)

def tailScan (s : List Char) (q : Nat) : Option Nat :=
  tailScanAux s (s.length + 1) (q + 1)

/-- The literal `": {` that follows the first lazy dot. -/
def litQColBr : List Char := ['"', ':', ' ', '\x7b']

/-- Match the pattern `\s+".+?": {.+?},?\n` (with `re.DOTALL`) at position
`p`; return the length of the match. -/
def matchAt (s : List Char) (p : Nat) : Option Nat :=
  let k := (leadingWs (s.drop p)).length
  if k == 0 then none
  else
    match s.get? (p + k) with
    | none => none
    | some c =>
      if c == '"' then
        match strIdxFrom litQColBr s (p + k + 2) with
        | none => none
        | some r =>
          match tailScan s (r + 4) with
          | none => none
          | some e => some (e - p)
      else none

/-- `re.findall`: left-to-right scan collecting non-overlapping matches;
returns the list of (position, length) pairs. -/
def findAllAux (s : List Char) : Nat → Nat → List (Nat × Nat)
  | 0, _ => []
  | fuel + 1, p =>
    if p < s.length then
      match matchAt s p with
      | some L => (p, L) :: findAllAux s fuel (p + L)
      | none => findAllAux s fuel (p + 1)
    else []

def findAllEntries (s : List Char) : List (Nat × Nat) :=
  findAllAux s (s.length + 1) 0

/-! ### `update_flavor_factory` -/

/-- The marker `def list_megalinter_flavors():` located by `content.index`. -/
def markerStr : List Char := ("def list_megalinter_flavors():").data

/-- The marker `return flavors` bounding the flavors dictionary text. -/
def retStr : List Char := ("return flavors").data

/-- The existence check `f'"{new_flavor}":'`. -/
def regSub (newFlavor : List Char) : List Char :=
  '"' :: newFlavor ++ ['"', ':']

/-- The fragment `": {"label": "` between the flavor name and its
description inside the generated entry. -/
def entryMid : List Char :=
  ['"', ':', ' ', '\x7b', '"', 'l', 'a', 'b', 'e', 'l', '"', ':', ' ', '"']

/-- The fragment `"},\n` closing the generated entry. -/
def entryClose : List Char := ['"', '\x7d', ',', '\n']

/-- The new dictionary entry `f'{indent}"{new_flavor}": {{"label":
"{new_flavor_description}"}},\n'`. -/
def newEntryStr (indent newFlavor newFlavorDescription : List Char) : List Char :=
  indent ++ '"' :: newFlavor ++ entryMid ++ newFlavorDescription ++ entryClose

/-- Model of `update_flavor_factory`: reads `content`, returns the resulting
file content (`some content` itself when nothing is changed), or `none` when
the Python code raises (marker not found, `return flavors` not found, or
`re.findall(...)[-1]` on an empty list). -/
def updateFlavorFactory (content newFlavor newFlavorDescription : List Char) :
    Option (List Char) :=
  match strIdxFrom markerStr content 0 with
  | none => none
  | some start =>
    match strIdxFrom retStr content start with
    | none => none
    | some e =>
      let fds := sliceAt content start (e - start)
      if isSub (regSub newFlavor) fds then some content
      else
        match (findAllEntries fds).getLast? with
        | none => none
        | some pl =>
          let lastEntry := sliceAt fds pl.1 pl.2
          let pos := (rfindSub lastEntry fds).getD 0
          let indent := leadingWs lastEntry
          let updated :=
            fds.take pos ++
            rstripIn [',', '\n'] lastEntry ++ [',', '\n'] ++
            newEntryStr indent newFlavor newFlavorDescription ++
            rstripWs (fds.drop (pos + lastEntry.length)) ++
            ['\n'] ++ indent.take (indent.length - 4)
          some (content.take start ++ updated ++ retStr ++ '\n' ::
            content.drop (e + retStr.length))

/-! ### YAML value model

`YVal` covers the YAML shapes the reconciliation code can meet: strings,
sequences, mappings (whose keys, in a descriptor file, are strings), and
non-string scalars (ints, bools, null), which the code never inspects beyond
identity.  Mappings produced by loading a YAML file have unique keys. -/

inductive YVal where
  | str : String → YVal
  | list : List YVal → YVal
  | map : List (String × YVal) → YVal
  | scalar : Int → YVal

/-- Python `pyStr == v` for a `str` left operand: only equal strings compare
equal; any other type yields `False`. -/
def isStrEq (s : String) : YVal → Bool
  | .str t => s == t
  | _ => false

/-- Python dict lookup `m[key]` (first matching key; loaded YAML mappings
have unique keys). -/
def mlookup : List (String × YVal) → String → Option YVal
  | [], _ => none
  | (k, v) :: rest, key => if k == key then some v else mlookup rest key

/-- Python `key in m`. -/
def hasKey (m : List (String × YVal)) (key : String) : Bool :=
  (mlookup m key).isSome

/-- Python `m[key] = v`: replace in place when present, append otherwise. -/
def msetKey : List (String × YVal) → String → YVal → List (String × YVal)
  | [], key, v => [(key, v)]
  | (k, w) :: rest, key, v =>
    if k == key then (k, v) :: rest else (k, w) :: msetKey rest key v

/-- Python `lst.remove(x)` for a string `x`: drop the first equal element. -/
def removeFirstStr (s : String) : List YVal → List YVal
  | [] => []
  | v :: rest => if isStrEq s v then rest else v :: removeFirstStr s rest

/-- Python `x in container` for a string `x`: elementwise equality on a
list, substring test on a string, key membership on a dict, and a raised
`TypeError` on a non-iterable scalar. -/
def pyContains (s : String) : YVal → Except Unit Bool
  | .list l => .ok (l.any (isStrEq s))
  | .str t => .ok (isSub s.data t.data)
  | .map m => .ok (m.any (fun kv => kv.1 == s))
  | .scalar _ => .error ()

/-! ### `update_yaml_descriptors` -/

/-- Lines 142-155 of `flavor_generator.py`, for a single element of
`data['linters']`.  Returns the updated entry and whether this entry set the
`modified` flag; `.error ()` models a raised exception (`.append` or
`.remove` on a non-list `descriptor_flavors`). -/
def processLinter (components : List String) (newFlavor : String) (linter : YVal) :
    Except Unit (YVal × Bool) :=
  match linter with
  | .map m =>
    if hasKey m ("linter_name") then
      -- if 'descriptor_flavors' not in linter: linter['descriptor_flavors'] = []
      let m1 := if hasKey m ("descriptor_flavors") then m
                else msetKey m ("descriptor_flavors") (.list [])
      let nameVal := (mlookup m1 ("linter_name")).getD (.scalar 0)
      let flavorsVal := (mlookup m1 ("descriptor_flavors")).getD (.scalar 0)
      if components.any (fun c => isStrEq c nameVal) then
        match pyContains newFlavor flavorsVal with
        | .error e => .error e
        | .ok true => .ok (.map m1, false)
        | .ok false =>
          match flavorsVal with
          | .list l =>
            .ok (.map (msetKey m1 ("descriptor_flavors")
              (.list (l ++ [.str newFlavor]))), true)
          | _ => .error ()   -- AttributeError: no .append
      else
        match pyContains newFlavor flavorsVal with
        | .error e => .error e
        | .ok false => .ok (.map m1, false)
        | .ok true =>
          match flavorsVal with
          | .list l =>
            .ok (.map (msetKey m1 ("descriptor_flavors")
              (.list (removeFirstStr newFlavor l))), true)
          | _ => .error ()   -- AttributeError: no .remove
    else .ok (linter, false)
  | _ => .ok (linter, false)

/-- The `for linter in data['linters']` loop; the document's `modified` flag
is the disjunction of the per-entry flags. -/
def processLinters (components : List String) (newFlavor : String) :
    List YVal → Except Unit (List YVal × Bool)
  | [] => .ok ([], false)
  | l :: rest =>
    match processLinter components newFlavor l with
    | .error e => .error e
    | .ok r =>
      match processLinters components newFlavor rest with
      | .error e => .error e
      | .ok rr => .ok (r.1 :: rr.1, r.2 || rr.2)

/-- Lines 139-155 for one loaded document.  Iterating `data['linters']`
yields its elements for a sequence, its keys for a mapping and its
characters for a string (none of which is a dict, so they are all skipped),
and raises `TypeError` for a scalar. -/
def updateDoc (components : List String) (newFlavor : String) (data : YVal) :
    Except Unit (YVal × Bool) :=
  match data with
  | .map m =>
    if hasKey m ("linters") then
      match (mlookup m ("linters")).getD (.scalar 0) with
      | .list ls =>
        match processLinters components newFlavor ls with
        | .error e => .error e
        | .ok r => .ok (.map (msetKey m ("linters") (.list r.1)), r.2)
      | .map m2 =>
        match processLinters components newFlavor (m2.map (fun kv => .str kv.1)) with
        | .error e => .error e
        | .ok r => .ok (.map m, r.2)
      | .str s =>
        match processLinters components newFlavor
          (s.data.map (fun c => .str (String.mk [c]))) with
        | .error e => .error e
        | .ok r => .ok (.map m, r.2)
      | .scalar _ => .error ()   -- TypeError: not iterable
    else .ok (data, false)
  | _ => .ok (data, false)

/-- Lines 135-162 for one file of the store: `none` models a file whose
`yaml.load` raises (the `except` clause logs and re-raises); otherwise the
document is processed and written back exactly when `modified` is true.
Returns the on-disk content of the file after the step, paired with the
`modified` flag (true exactly when the file was rewritten). -/
def updateFile (components : List String) (newFlavor : String) :
    Option YVal → Except Unit (YVal × Bool)
  | none => .error ()
  | some data =>
    match updateDoc components newFlavor data with
    | .error e => .error e
    | .ok r => .ok (if r.2 then r.1 else data, r.2)

/-- The whole sweep of `update_yaml_descriptors` over the loaded store,
returning for each file its on-disk content after the sweep together with
its `modified` flag.  A raised exception aborts the remaining files. -/
def updateYamlDescriptors (components : List String) (newFlavor : String) :
    List (Option YVal) → Except Unit (List (YVal × Bool))
  | [] => .ok []
  | d :: rest =>
    match updateFile components newFlavor d with
    | .error e => .error e
    | .ok p =>
      match updateYamlDescriptors components newFlavor rest with
      | .error e => .error e
      | .ok rest2 => .ok (p :: rest2)

/-! ### Observations on documents, used to state the claims -/

/-- The `linter_name` of an entry, when it is a mapping whose `linter_name`
is a string (the shape whose name can be "present in the document"). -/
def entryName : YVal → Option String
  | .map m =>
    match mlookup m ("linter_name") with
    | some (.str n) => some n
    | _ => none
  | _ => none

/-- The entry carries the flavor: its `descriptor_flavors` is a sequence
containing the flavor name. -/
def entryCarries (flavor : String) : YVal → Bool
  | .map m =>
    match mlookup m ("descriptor_flavors") with
    | some (.list fl) => fl.any (isStrEq flavor)
    | _ => false
  | _ => false

/-- The `descriptor_flavors` value of an entry, if any. -/
def flavorsOf : YVal → Option YVal
  | .map m => mlookup m ("descriptor_flavors")
  | _ => none

/-- The `descriptor_flavors` sequence of an entry, defaulting to `[]` when
the key is absent (the code inserts exactly this default). -/
def flavorsBaseOf (e : YVal) : List YVal :=
  match flavorsOf e with
  | some (.list l) => l
  | _ => []

/-- The `linters` sequence of a document (empty when the document is not a
mapping with a sequence-valued `linters` key). -/
def docLinters : YVal → List YVal
  | .map m =>
    match mlookup m ("linters") with
    | some (.list ls) => ls
    | _ => []
  | _ => []

/-- Names of the Linter Entries of a document. -/
def entryNames (ls : List YVal) : List String := ls.filterMap entryName

/-- Names of the Linter Entries carrying the flavor. -/
def carrierNames (flavor : String) (ls : List YVal) : List String :=
  (ls.filter (entryCarries flavor)).filterMap entryName

/-- The document's root-level `descriptor_flavors` value, if any. -/
def rootFlavors : YVal → Option YVal
  | .map m => mlookup m ("descriptor_flavors")
  | _ => none

/-- The document's root-level `descriptor_flavors` contains the flavor. -/
def rootHasFlavor (flavor : String) (data : YVal) : Bool :=
  match rootFlavors data with
  | some (.list fl) => fl.any (isStrEq flavor)
  | _ => false

/-- The document declares an `install` marker at root. -/
def hasInstallMarker : YVal → Bool
  | .map m => hasKey m ("install")
  | _ => false

/-- No two string elements of a `descriptor_flavors` sequence are equal:
the sequence "contains no duplicates" as a set of flavor names. -/
def strNodup : List YVal → Bool
  | [] => true
  | .str s :: rest => !(rest.any (isStrEq s)) && strNodup rest
  | _ :: rest => strNodup rest

/-- A well-formed Linter Entry: if it is a record with a `linter_name`,
then its `descriptor_flavors`, when present, is a sequence without
duplicate flavor names. -/
def wfEntry : YVal → Bool
  | .map m =>
    if hasKey m ("linter_name") then
      match mlookup m ("descriptor_flavors") with
      | none => true
      | some (.list fl) => strNodup fl
      | some _ => false
    else true
  | _ => true

/-- A well-formed document: every Linter Entry in it is well-formed. -/
def wfDoc (data : YVal) : Bool := (docLinters data).all wfEntry

/-- A well-formed store: every document that loads is well-formed. -/
def wfStore (store : List (Option YVal)) : Bool :=
  store.all (fun d => (d.map wfDoc).getD true)

/-- The document is record-shaped and has the expected `linters` key. -/
def docIsRecordWithLinters : YVal → Bool
  | .map m => hasKey m ("linters")
  | _ => false

/-- Whether processing the entry would set the `modified` flag: the entry is
a record with a `linter_name`, and the flavor's membership in its
`descriptor_flavors` (defaulted to `[]`) disagrees with the membership of
its `linter_name` in the desired components. -/
def entryWouldChange (components : List String) (flavor : String) : YVal → Bool
  | .map m =>
    if hasKey m ("linter_name") then
      let fv := match mlookup m ("descriptor_flavors") with
                | none => YVal.list []
                | some v => v
      match pyContains flavor fv with
      | .ok b =>
        if components.any (fun c => isStrEq c ((mlookup m ("linter_name")).getD (.scalar 0)))
        then !b else b
      | .error _ => true
    else false
  | _ => false

/-- The string elements of a `descriptor_flavors` sequence, in order. -/
def flavorStrings : List YVal → List String
  | [] => []
  | .str s :: rest => s :: flavorStrings rest
  | _ :: rest => flavorStrings rest

/-- Code-point lexicographic comparison of strings (Python `<=` on
`str`). -/
def strLeData : List Char → List Char → Bool
  | [], _ => true
  | _ :: _, [] => false
  | a :: as, b :: bs =>
    if a == b then strLeData as bs else decide (a.toNat < b.toNat)

def strLe (a b : String) : Bool := strLeData a.data b.data

/-- The sequence of flavor names is sorted. -/
def sortedStrings : List String → Bool
  | [] => true
  | [_] => true
  | a :: b :: rest => strLe a b && sortedStrings (b :: rest)

/-! ### Concrete documents and stores used by witnesses and
counterexamples -/

/-- The scenario document of the spec: entries `pylint` and `eslint`, an
`install` marker, `eslint` currently carrying the flavor `bio`. -/
def w1doc : YVal :=
  .map [(("install"), .map []),
        (("linters"), .list
          [.map [(("linter_name"), .str ("pylint"))],
           .map [(("linter_name"), .str ("eslint")),
                 (("descriptor_flavors"), .list [.str ("bio")])]])]

def w1res : YVal :=
  match updateDoc [("pylint")] ("bio") w1doc with
  | .ok r => r.1
  | .error _ => .scalar 0

def w1mod : Bool :=
  match updateDoc [("pylint")] ("bio") w1doc with
  | .ok r => r.2
  | .error _ => false

def w2store : List (Option YVal) := [some w1doc, some (.str ("not a record"))]

def w2out : List (YVal × Bool) :=
  match updateYamlDescriptors [("pylint")] ("bio") w2store with
  | .ok out => out
  | .error _ => []

/-- An installable document whose only entry is a desired component, with
no root-level `descriptor_flavors`. -/
def c3doc : YVal :=
  .map [(("install"), .map []),
        (("linters"), .list [.map [(("linter_name"), .str ("pylint"))]])]

def c3out : YVal :=
  match updateDoc [("pylint")] ("bio") c3doc with
  | .ok r => r.1
  | .error _ => .scalar 0

/-- An excluded entry carrying a universal-install marker in its
`descriptor_flavors`. -/
def c7doc : YVal :=
  .map [(("linters"), .list
    [.map [(("linter_name"), .str ("x")),
           (("descriptor_flavors"), .list [.str ("all_flavors")])]])]

/-- An excluded entry carrying both a universal marker and the target
flavor: processing removes only the target flavor. -/
def c7entry : YVal :=
  .map [(("linter_name"), .str ("x")),
        (("descriptor_flavors"), .list [.str ("all_flavors"), .str ("bio")])]

def c7out : YVal :=
  match processLinter [("pylint")] ("bio") c7entry with
  | .ok r => r.1
  | .error _ => .scalar 0

def c7f : Bool :=
  match processLinter [("pylint")] ("bio") c7entry with
  | .ok r => r.2
  | .error _ => false

/-- A desired entry whose `descriptor_flavors` holds a lexicographically
larger name, so that appending the new flavor breaks sortedness. -/
def c9doc : YVal :=
  .map [(("linters"), .list
    [.map [(("linter_name"), .str ("pylint")),
           (("descriptor_flavors"), .list [.str ("zzz")])]])]

def c9out : YVal :=
  match updateDoc [("pylint")] ("aaa") c9doc with
  | .ok r => r.1
  | .error _ => .scalar 0

def c9entry : YVal :=
  .map [(("linter_name"), .str ("pylint")),
        (("descriptor_flavors"), .list [.str ("zzz")])]

def c9entryOut : YVal :=
  match processLinter [("pylint")] ("aaa") c9entry with
  | .ok r => r.1
  | .error _ => .scalar 0

/-- A document with one desired entry and one unrelated entry, both
lacking the `descriptor_flavors` key. -/
def w10doc : YVal :=
  .map [(("linters"), .list
    [.map [(("linter_name"), .str ("pylint"))],
     .map [(("linter_name"), .str ("other"))]])]

def w10res : YVal :=
  match updateDoc [("pylint")] ("bio") w10doc with
  | .ok r => r.1
  | .error _ => .scalar 0

def w10mod : Bool :=
  match updateDoc [("pylint")] ("bio") w10doc with
  | .ok r => r.2
  | .error _ => false

/-- A small flavor-factory source with one registered flavor. -/
def c5content : List Char :=
  ("def list_megalinter_flavors():\n    flavors = \x7b\n        \"all\": \x7b\"label\": \"A\"\x7d,\n    \x7d\n    return flavors\n").data

def c5flavor : List Char := ("newf").data

def c5desc : List Char := ("New flavor").data

/-- The factory source after one application of the patch. -/
def c5res : List Char :=
  match updateFlavorFactory c5content c5flavor c5desc with
  | some r => r
  | none => []

/-- A flavor-factory source with two registered flavors and trailing code
after the flavor-listing function. -/
def c6content : List Char :=
  ("def list_megalinter_flavors():\n    flavors = \x7b\n        \"all\": \x7b\"label\": \"A\"\x7d,\n        \"dotnet\": \x7b\"label\": \"D\"\x7d,\n    \x7d\n    return flavors\nprint(1)\n").data

def c6flavor : List Char := ("extra").data

def c6desc : List Char := ("Extra linters").data

def c6res : List Char :=
  match updateFlavorFactory c6content c6flavor c6desc with
  | some r => r
  | none => []

/-! ## Lemmas about the YAML primitives -/

theorem mlookup_msetKey_self (m : List (String × YVal)) (k : String) (v : YVal) :
    mlookup (msetKey m k v) k = some v := by
  induction m with
  | nil => simp [msetKey, mlookup]
  | cons kv rest ih =>
    by_cases h : kv.1 == k
    · simp [msetKey, h, mlookup]
    · simp [msetKey, h, mlookup, ih]

theorem mlookup_msetKey_ne (m : List (String × YVal)) (k k2 : String) (v : YVal)
    (h : (k == k2) = false) : mlookup (msetKey m k v) k2 = mlookup m k2 := by
  induction m with
  | nil => simp [msetKey, mlookup, h]
  | cons kv rest ih =>
    by_cases hk : kv.1 == k
    · have h1 : kv.1 = k := by simpa [beq_iff_eq] using hk
      simp [msetKey, hk, mlookup, h1, h]
    · by_cases hk2 : kv.1 == k2
      · simp [msetKey, hk, mlookup, hk2]
      · simp [msetKey, hk, mlookup, hk2, ih]

theorem msetKey_mlookup_eq (m : List (String × YVal)) (k : String) (v : YVal)
    (h : mlookup m k = some v) : msetKey m k v = m := by
  induction m with
  | nil => simp [mlookup] at h
  | cons kv rest ih =>
    by_cases hk : kv.1 == k
    · have h1 : kv.1 = k := by simpa [beq_iff_eq] using hk
      simp only [mlookup, hk, if_true, Option.some.injEq] at h
      cases kv with
      | mk k0 v0 =>
        simp only at h1 h
        subst h1; subst h
        simp [msetKey]
    · simp only [mlookup, hk, if_false, Bool.false_eq_true] at h
      simp [msetKey, hk, ih h]

theorem msetKey_msetKey (m : List (String × YVal)) (k : String) (v w : YVal) :
    msetKey (msetKey m k v) k w = msetKey m k w := by
  induction m with
  | nil => simp [msetKey]
  | cons kv rest ih =>
    by_cases hk : kv.1 == k
    · simp [msetKey, hk]
    · simp [msetKey, hk, ih]

theorem isStrEq_iff (s : String) (v : YVal) : isStrEq s v = true ↔ v = .str s := by
  cases v with
  | str t =>
    simp only [isStrEq, beq_iff_eq, YVal.str.injEq]
    exact ⟨fun h => h.symm, fun h => h.symm⟩
  | list l => simp [isStrEq]
  | map m => simp [isStrEq]
  | scalar i => simp [isStrEq]

theorem removeFirstStr_subset (s : String) (l : List YVal) (p : YVal → Bool)
    (h : (removeFirstStr s l).any p = true) : l.any p = true := by
  induction l with
  | nil => simp [removeFirstStr] at h
  | cons v rest ih =>
    by_cases hv : isStrEq s v
    · rw [removeFirstStr, if_pos hv] at h
      rw [List.any_cons, h, Bool.or_true]
    · rw [removeFirstStr, if_neg hv, List.any_cons] at h
      rw [List.any_cons]
      rcases Bool.or_eq_true_iff.mp h with h | h
      · rw [h, Bool.true_or]
      · rw [ih h, Bool.or_true]

theorem strNodup_tail (v : YVal) (rest : List YVal)
    (h : strNodup (v :: rest) = true) : strNodup rest = true := by
  cases v with
  | str s =>
    rw [strNodup, Bool.and_eq_true] at h
    exact h.2
  | list l => exact h
  | map m => exact h
  | scalar i => exact h

theorem removeFirstStr_no_more (s : String) (l : List YVal)
    (h : strNodup l = true) : (removeFirstStr s l).any (isStrEq s) = false := by
  induction l with
  | nil => simp [removeFirstStr]
  | cons v rest ih =>
    by_cases hv : isStrEq s v
    · have hv2 : v = .str s := (isStrEq_iff s v).mp hv
      subst hv2
      rw [removeFirstStr, if_pos hv]
      rw [strNodup, Bool.and_eq_true, Bool.not_eq_true'] at h
      exact h.1
    · rw [removeFirstStr, if_neg hv, List.any_cons, Bool.or_eq_false_iff]
      exact ⟨Bool.not_eq_true _ ▸ Bool.of_not_eq_true hv,
             ih (strNodup_tail v rest h)⟩

theorem removeFirstStr_other (s flavor : String) (l : List YVal)
    (hne : (s == flavor) = false) :
    (removeFirstStr flavor l).any (isStrEq s) = l.any (isStrEq s) := by
  induction l with
  | nil => simp [removeFirstStr]
  | cons v rest ih =>
    by_cases hv : isStrEq flavor v
    · have hv2 : v = .str flavor := (isStrEq_iff flavor v).mp hv
      subst hv2
      rw [removeFirstStr, if_pos hv, List.any_cons]
      have : isStrEq s (.str flavor) = false := by
        simpa [isStrEq] using hne
      rw [this, Bool.false_or]
    · rw [removeFirstStr, if_neg hv, List.any_cons, List.any_cons, ih]

theorem strNodup_removeFirstStr (s : String) (l : List YVal)
    (h : strNodup l = true) : strNodup (removeFirstStr s l) = true := by
  induction l with
  | nil => simp [removeFirstStr, strNodup]
  | cons v rest ih =>
    by_cases hv : isStrEq s v
    · rw [removeFirstStr, if_pos hv]
      exact strNodup_tail v rest h
    · rw [removeFirstStr, if_neg hv]
      cases v with
      | str t =>
        rw [strNodup, Bool.and_eq_true] at h ⊢
        refine ⟨?_, ih h.2⟩
        rw [Bool.not_eq_true'] at h ⊢
        cases hc : (removeFirstStr s rest).any (isStrEq t) with
        | false => rfl
        | true => exact absurd (removeFirstStr_subset s rest _ hc) (by rw [h.1]; simp)
      | list l2 => exact ih (strNodup_tail _ rest h)
      | map m2 => exact ih (strNodup_tail _ rest h)
      | scalar i2 => exact ih (strNodup_tail _ rest h)

theorem strNodup_append_new (flavor : String) (l : List YVal)
    (h : strNodup l = true) (habs : l.any (isStrEq flavor) = false) :
    strNodup (l ++ [.str flavor]) = true := by
  induction l with
  | nil => simp [strNodup, isStrEq]
  | cons v rest ih =>
    rw [List.any_cons, Bool.or_eq_false_iff] at habs
    rw [List.cons_append]
    cases v with
    | str t =>
      rw [strNodup, Bool.and_eq_true] at h
      rw [strNodup, Bool.and_eq_true]
      refine ⟨?_, ih h.2 habs.2⟩
      rw [Bool.not_eq_true']
      rw [List.any_append, Bool.or_eq_false_iff]
      refine ⟨?_, ?_⟩
      · have h1 := h.1
        rw [Bool.not_eq_true'] at h1
        exact h1
      rw [List.any_cons, List.any_nil, Bool.or_false]
      have : isStrEq flavor (.str t) = false := habs.1
      rw [isStrEq] at this ⊢
      rw [beq_eq_false_iff_ne] at this ⊢
      exact fun e => this e.symm
    | list l2 => exact ih (strNodup_tail _ rest h) habs.2
    | map m2 => exact ih (strNodup_tail _ rest h) habs.2
    | scalar i2 => exact ih (strNodup_tail _ rest h) habs.2

theorem key_df_ne_ln : ((("descriptor_flavors" : String)) == (("linter_name" : String))) = false := by
  decide

theorem key_df_ne_linters : ((("descriptor_flavors" : String)) == (("linters" : String))) = false := by
  decide

theorem key_linters_ne_df : ((("linters" : String)) == (("descriptor_flavors" : String))) = false := by
  decide

theorem key_linters_ne_install : ((("linters" : String)) == (("install" : String))) = false := by
  decide

/-- Exhaustive description of the outcomes of `processLinter` on inputs
that do not raise. -/
theorem processLinter_cases (comps : List String) (flavor : String) (e : YVal)
    (r : YVal × Bool) (h : processLinter comps flavor e = .ok r) :
    ((∀ m2 : List (String × YVal), e ≠ YVal.map m2) ∧ r = (e, false)) ∨
    (∃ m, e = YVal.map m ∧ hasKey m ("linter_name") = false ∧ r = (e, false)) ∨
    (∃ m m1, e = YVal.map m ∧ hasKey m ("linter_name") = true ∧
      m1 = (if hasKey m ("descriptor_flavors") = true then m
            else msetKey m ("descriptor_flavors") (YVal.list [])) ∧
      ((comps.any (fun c => isStrEq c ((mlookup m1 ("linter_name")).getD (.scalar 0))) = true ∧
          pyContains flavor ((mlookup m1 ("descriptor_flavors")).getD (.scalar 0)) = .ok true ∧
          r = (.map m1, false)) ∨
       (comps.any (fun c => isStrEq c ((mlookup m1 ("linter_name")).getD (.scalar 0))) = true ∧
          (∃ l, mlookup m1 ("descriptor_flavors") = some (YVal.list l) ∧
            l.any (isStrEq flavor) = false ∧
            r = (.map (msetKey m1 ("descriptor_flavors")
                   (YVal.list (l ++ [YVal.str flavor]))), true))) ∨
       (comps.any (fun c => isStrEq c ((mlookup m1 ("linter_name")).getD (.scalar 0))) = false ∧
          pyContains flavor ((mlookup m1 ("descriptor_flavors")).getD (.scalar 0)) = .ok false ∧
          r = (.map m1, false)) ∨
       (comps.any (fun c => isStrEq c ((mlookup m1 ("linter_name")).getD (.scalar 0))) = false ∧
          (∃ l, mlookup m1 ("descriptor_flavors") = some (YVal.list l) ∧
            l.any (isStrEq flavor) = true ∧
            r = (.map (msetKey m1 ("descriptor_flavors")
                   (YVal.list (removeFirstStr flavor l))), true))))) := by
  cases e with
  | str s =>
    left
    constructor
    · intro m2 hc; cases hc
    · simp only [processLinter] at h
      exact ((Except.ok.injEq _ _).mp h).symm
  | list l =>
    left
    constructor
    · intro m2 hc; cases hc
    · simp only [processLinter] at h
      exact ((Except.ok.injEq _ _).mp h).symm
  | scalar i =>
    left
    constructor
    · intro m2 hc; cases hc
    · simp only [processLinter] at h
      exact ((Except.ok.injEq _ _).mp h).symm
  | map m =>
    by_cases hname : hasKey m ("linter_name") = true
    · right; right
      simp only [processLinter] at h
      rw [if_pos hname] at h
      refine ⟨m, _, rfl, hname, rfl, ?_⟩
      by_cases hin : comps.any (fun c => isStrEq c
          ((mlookup (if hasKey m ("descriptor_flavors") = true then m
            else msetKey m ("descriptor_flavors") (YVal.list []))
            ("linter_name")).getD (.scalar 0))) = true
      · rw [if_pos hin] at h
        rcases hfv : pyContains flavor
            ((mlookup (if hasKey m ("descriptor_flavors") = true then m
              else msetKey m ("descriptor_flavors") (YVal.list []))
              ("descriptor_flavors")).getD (.scalar 0)) with e0 | b
        · rw [hfv] at h; cases h
        · rw [hfv] at h
          cases b with
          | true =>
            left
            refine ⟨hin, rfl, ?_⟩
            exact ((Except.ok.injEq _ _).mp h).symm
          | false =>
            right; left
            refine ⟨hin, ?_⟩
            rcases hmk : mlookup (if hasKey m ("descriptor_flavors") = true then m
                else msetKey m ("descriptor_flavors") (YVal.list []))
                ("descriptor_flavors") with _ | v
            · rw [hmk] at h hfv
              simp only [Option.getD_none] at h
              cases h
            · rw [hmk] at h hfv
              simp only [Option.getD_some] at h hfv
              cases v with
              | list l =>
                refine ⟨l, rfl, ?_, ?_⟩
                · rw [pyContains] at hfv
                  simpa using hfv
                · exact ((Except.ok.injEq _ _).mp h).symm
              | str s => cases h
              | map m2 => cases h
              | scalar i => cases h
      · rw [if_neg hin] at h
        rcases hfv : pyContains flavor
            ((mlookup (if hasKey m ("descriptor_flavors") = true then m
              else msetKey m ("descriptor_flavors") (YVal.list []))
              ("descriptor_flavors")).getD (.scalar 0)) with e0 | b
        · rw [hfv] at h; cases h
        · rw [hfv] at h
          cases b with
          | false =>
            right; right; left
            refine ⟨by simpa using hin, rfl, ?_⟩
            exact ((Except.ok.injEq _ _).mp h).symm
          | true =>
            right; right; right
            refine ⟨by simpa using hin, ?_⟩
            rcases hmk : mlookup (if hasKey m ("descriptor_flavors") = true then m
                else msetKey m ("descriptor_flavors") (YVal.list []))
                ("descriptor_flavors") with _ | v
            · rw [hmk] at h hfv
              simp only [Option.getD_none] at h
              cases h
            · rw [hmk] at h hfv
              simp only [Option.getD_some] at h hfv
              cases v with
              | list l =>
                refine ⟨l, rfl, ?_, ?_⟩
                · rw [pyContains] at hfv
                  simpa using hfv
                · exact ((Except.ok.injEq _ _).mp h).symm
              | str s => cases h
              | map m2 => cases h
              | scalar i => cases h
    · right; left
      simp only [processLinter] at h
      rw [if_neg hname] at h
      exact ⟨m, rfl, by simpa using hname,
        ((Except.ok.injEq _ _).mp h).symm⟩

/-- `linter_name` lookups are unaffected by inserting `descriptor_flavors`. -/
theorem mlookup_m1_name (m : List (String × YVal)) :
    mlookup (if hasKey m ("descriptor_flavors") = true then m
      else msetKey m ("descriptor_flavors") (YVal.list [])) ("linter_name") =
    mlookup m ("linter_name") := by
  by_cases hdk : hasKey m ("descriptor_flavors") = true
  · rw [if_pos hdk]
  · rw [if_neg hdk, mlookup_msetKey_ne _ _ _ _ key_df_ne_ln]

theorem mlookup_m1_flavors_present (m : List (String × YVal)) (v : YVal)
    (h : mlookup m ("descriptor_flavors") = some v) :
    mlookup (if hasKey m ("descriptor_flavors") = true then m
      else msetKey m ("descriptor_flavors") (YVal.list [])) ("descriptor_flavors") =
    some v := by
  have hdk : hasKey m ("descriptor_flavors") = true := by
    rw [hasKey, h]; rfl
  rw [if_pos hdk, h]

theorem mlookup_m1_flavors_absent (m : List (String × YVal))
    (h : mlookup m ("descriptor_flavors") = none) :
    mlookup (if hasKey m ("descriptor_flavors") = true then m
      else msetKey m ("descriptor_flavors") (YVal.list []))
      ("descriptor_flavors") = some (YVal.list []) := by
  have hdk : hasKey m ("descriptor_flavors") = false := by
    rw [hasKey, h]; rfl
  rw [hdk]
  simp only [Bool.false_eq_true, if_false]
  exact mlookup_msetKey_self _ _ _

/-- Extraction from `wfEntry` for a record with a `linter_name`. -/
theorem wfEntry_flavors (m : List (String × YVal))
    (hname : hasKey m ("linter_name") = true)
    (hwf : wfEntry (.map m) = true) :
    mlookup m ("descriptor_flavors") = none ∨
    ∃ fl, mlookup m ("descriptor_flavors") = some (YVal.list fl) ∧
      strNodup fl = true := by
  rw [wfEntry, if_pos hname] at hwf
  rcases hlk : mlookup m ("descriptor_flavors") with _ | v
  · exact Or.inl rfl
  · rw [hlk] at hwf
    cases v with
    | list fl => exact Or.inr ⟨fl, rfl, hwf⟩
    | str s => cases hwf
    | map m2 => cases hwf
    | scalar i => cases hwf

/-- Evaluation of `processLinter` on a record taking a no-op branch. -/
theorem processLinter_noop (comps : List String) (flavor : String)
    (m : List (String × YVal)) (b : Bool)
    (hname : hasKey m ("linter_name") = true)
    (fv : YVal) (hfv : mlookup m ("descriptor_flavors") = some fv)
    (hinC : comps.any
      (fun c => isStrEq c ((mlookup m ("linter_name")).getD (.scalar 0))) = b)
    (hpc : pyContains flavor fv = .ok b) :
    processLinter comps flavor (.map m) = .ok (.map m, false) := by
  have hdk : hasKey m ("descriptor_flavors") = true := by
    rw [hasKey, hfv]; rfl
  simp only [processLinter]
  rw [if_pos hname]
  rw [if_pos hdk, hfv]
  simp only [Option.getD_some]
  cases b with
  | true =>
    rw [hinC]
    simp only [if_true]
    rw [hpc]
  | false =>
    rw [hinC]
    simp only [Bool.false_eq_true, if_false]
    rw [hpc]

/-- `processLinter` never changes the `linter_name` of an entry. -/
theorem processLinter_name (comps : List String) (flavor : String)
    (e e2 : YVal) (f : Bool) (h : processLinter comps flavor e = .ok (e2, f)) :
    entryName e2 = entryName e := by
  rcases processLinter_cases comps flavor e (e2, f) h with
    ⟨hnm, hr⟩ | ⟨m, he, hname, hr⟩ | ⟨m, m1, he, hname, hm1, hbr⟩
  · rw [Prod.mk.injEq] at hr
    rw [hr.1]
  · rw [Prod.mk.injEq] at hr
    rw [hr.1]
  · subst he
    have hln : mlookup m1 ("linter_name") = mlookup m ("linter_name") := by
      rw [hm1]; exact mlookup_m1_name m
    have hln2 : ∀ x : YVal,
        mlookup (msetKey m1 ("descriptor_flavors") x) ("linter_name") =
        mlookup m ("linter_name") := by
      intro x
      rw [mlookup_msetKey_ne _ _ _ _ key_df_ne_ln, hln]
    rcases hbr with ⟨_, _, hr⟩ | ⟨_, l, hl, _, hr⟩ | ⟨_, _, hr⟩ | ⟨_, l, hl, _, hr⟩ <;>
      rw [Prod.mk.injEq] at hr <;> rw [hr.1] <;>
      simp only [entryName] <;> first
        | rw [hln]
        | rw [hln2]

theorem entryCarries_map_list (s : String) (m : List (String × YVal))
    (fl : List YVal) (h : mlookup m ("descriptor_flavors") = some (YVal.list fl)) :
    entryCarries s (.map m) = fl.any (isStrEq s) := by
  simp only [entryCarries]
  rw [h]

theorem entryCarries_map_none (s : String) (m : List (String × YVal))
    (h : mlookup m ("descriptor_flavors") = none) :
    entryCarries s (.map m) = false := by
  simp only [entryCarries]
  rw [h]

/-- `processLinter` never changes the carry status of any flavor other than
the target flavor. -/
theorem processLinter_carries_other (comps : List String) (flavor : String)
    (e e2 : YVal) (f : Bool) (s : String) (hs : (s == flavor) = false)
    (h : processLinter comps flavor e = .ok (e2, f)) :
    entryCarries s e2 = entryCarries s e := by
  rcases processLinter_cases comps flavor e (e2, f) h with
    ⟨hnm, hr⟩ | ⟨m, he, hname, hr⟩ | ⟨m, m1, he, hname, hm1, hbr⟩
  · rw [Prod.mk.injEq] at hr
    rw [hr.1]
  · rw [Prod.mk.injEq] at hr
    rw [hr.1]
  · subst he
    have hflavorS : isStrEq s (.str flavor) = false := by simpa [isStrEq] using hs
    by_cases hdk : hasKey m ("descriptor_flavors") = true
    · have hm1m : m1 = m := by rw [hm1, if_pos hdk]
      subst hm1m
      rcases hbr with ⟨_, _, hr⟩ | ⟨_, l, hl, _, hr⟩ | ⟨_, _, hr⟩ | ⟨_, l, hl, _, hr⟩
      · rw [Prod.mk.injEq] at hr
        rw [hr.1]
      · rw [Prod.mk.injEq] at hr
        rw [hr.1]
        rw [entryCarries_map_list s _ _ (mlookup_msetKey_self m1 _ _),
            entryCarries_map_list s _ _ hl, List.any_append]
        simp only [List.any_cons, List.any_nil, Bool.or_false]
        rw [hflavorS, Bool.or_false]
      · rw [Prod.mk.injEq] at hr
        rw [hr.1]
      · rw [Prod.mk.injEq] at hr
        rw [hr.1]
        rw [entryCarries_map_list s _ _ (mlookup_msetKey_self m1 _ _),
            entryCarries_map_list s _ _ hl, removeFirstStr_other s flavor l hs]
    · have hm1m : m1 = msetKey m ("descriptor_flavors") (YVal.list []) := by
        rw [hm1, if_neg hdk]
      have hlk : mlookup m ("descriptor_flavors") = none := by
        rcases hn : mlookup m ("descriptor_flavors") with _ | v
        · rfl
        · exact absurd (by rw [hasKey, hn]; rfl) hdk
      have hm1lk : mlookup m1 ("descriptor_flavors") = some (YVal.list []) := by
        rw [hm1m]; exact mlookup_msetKey_self _ _ _
      have hCe : entryCarries s (.map m) = false := entryCarries_map_none s m hlk
      rcases hbr with ⟨_, hpc, hr⟩ | ⟨_, l, hl, _, hr⟩ | ⟨_, hpc, hr⟩ | ⟨_, l, hl, hany, hr⟩
      · rw [hm1lk] at hpc
        simp only [Option.getD_some, pyContains, List.any_nil] at hpc
        cases hpc
      · rw [Prod.mk.injEq] at hr
        rw [hr.1, hCe]
        rw [hm1lk] at hl
        have hl0 : l = [] := by
          cases hl2 : l
          · rfl
          · rw [hl2] at hl; cases hl
        subst hl0
        rw [entryCarries_map_list s _ _ (mlookup_msetKey_self m1 _ _)]
        simp only [List.nil_append, List.any_cons, List.any_nil, Bool.or_false]
        rw [hflavorS]
      · rw [Prod.mk.injEq] at hr
        rw [hr.1, hCe]
        rw [entryCarries_map_list s _ _ hm1lk]
        simp only [List.any_nil]
      · rw [hm1lk] at hl
        have hl0 : l = [] := by
          cases hl2 : l
          · rfl
          · rw [hl2] at hl; cases hl
        subst hl0
        cases hany

theorem entryName_elim (m : List (String × YVal)) (n : String)
    (h : entryName (.map m) = some n) :
    mlookup m ("linter_name") = some (YVal.str n) := by
  simp only [entryName] at h
  rcases hlk : mlookup m ("linter_name") with _ | v
  · rw [hlk] at h; cases h
  · rw [hlk] at h
    cases v with
    | str t =>
      simp only [Option.some.injEq] at h
      rw [h]
    | list l => cases h
    | map m2 => cases h
    | scalar i => cases h

theorem inComps_iff (comps : List String) (n : String) :
    comps.any (fun c => isStrEq c (.str n)) = true ↔ n ∈ comps := by
  simp only [List.any_eq_true, isStrEq, beq_iff_eq]
  constructor
  · rintro ⟨c, hc, rfl⟩; exact hc
  · intro hn; exact ⟨n, hn, rfl⟩

theorem hasKey_some (m : List (String × YVal)) (k : String) (v : YVal)
    (h : mlookup m k = some v) : hasKey m k = true := by
  rw [hasKey, h]; rfl

theorem hasKey_elim (m : List (String × YVal)) (k : String)
    (h : hasKey m k = true) : ∃ v, mlookup m k = some v := by
  rw [hasKey] at h
  rcases hlk : mlookup m k with _ | v
  · rw [hlk] at h; cases h
  · exact ⟨v, rfl⟩

/-- The `modified` flag set by an entry equals `entryWouldChange`. -/
theorem processLinter_flag (comps : List String) (flavor : String)
    (e e2 : YVal) (f : Bool) (h : processLinter comps flavor e = .ok (e2, f)) :
    f = entryWouldChange comps flavor e := by
  rcases processLinter_cases comps flavor e (e2, f) h with
    ⟨hnm, hr⟩ | ⟨m, he, hname, hr⟩ | ⟨m, m1, he, hname, hm1, hbr⟩
  · rw [Prod.mk.injEq] at hr
    rw [hr.2]
    cases e with
    | map m => exact absurd rfl (hnm m)
    | str s => rfl
    | list l => rfl
    | scalar i => rfl
  · rw [Prod.mk.injEq] at hr
    rw [hr.2]
    subst he
    simp only [entryWouldChange]
    rw [if_neg (by rw [hname]; exact Bool.false_ne_true)]
  · subst he
    have hln : mlookup m1 ("linter_name") = mlookup m ("linter_name") := by
      rw [hm1]; exact mlookup_m1_name m
    have hfv : ∀ v, mlookup m1 ("descriptor_flavors") = some v →
        (match mlookup m ("descriptor_flavors") with
         | none => YVal.list []
         | some w => w) = v := by
      intro v hv
      rw [hm1] at hv
      rcases hmd : mlookup m ("descriptor_flavors") with _ | w
      · rw [mlookup_m1_flavors_absent m hmd] at hv
        simp only [Option.some.injEq] at hv
        exact hv
      · rw [mlookup_m1_flavors_present m w hmd] at hv
        simp only [Option.some.injEq] at hv
        exact hv
    simp only [entryWouldChange]
    rw [if_pos hname]
    rcases hmd : mlookup m1 ("descriptor_flavors") with _ | v
    · exfalso
      rw [hm1] at hmd
      rcases hmd2 : mlookup m ("descriptor_flavors") with _ | w
      · rw [mlookup_m1_flavors_absent m hmd2] at hmd
        cases hmd
      · rw [mlookup_m1_flavors_present m w hmd2] at hmd
        cases hmd
    · have hfv2 := hfv v hmd
      rcases hbr with ⟨hin, hpc, hr⟩ | ⟨hin, l, hl, hany, hr⟩ |
        ⟨hin, hpc, hr⟩ | ⟨hin, l, hl, hany, hr⟩ <;>
          rw [Prod.mk.injEq] at hr
      · rw [hmd] at hpc
        simp only [Option.getD_some] at hpc
        rw [hfv2, hpc, ← hln, hin, hr.2]
        rfl
      · rw [hmd] at hl
        simp only [Option.some.injEq] at hl
        rw [hfv2, hl]
        simp only [pyContains, hany]
        rw [← hln, hin, hr.2]
        rfl
      · rw [hmd] at hpc
        simp only [Option.getD_some] at hpc
        rw [hfv2, hpc, ← hln, hin, hr.2]
        rfl
      · rw [hmd] at hl
        simp only [Option.some.injEq] at hl
        rw [hfv2, hl]
        simp only [pyContains, hany]
        rw [← hln, hin, hr.2]
        rfl

/-- The `modified` flag of an entry is set exactly when the entry's carry
status for the target flavor changed. -/
theorem processLinter_flag_carries (comps : List String) (flavor : String)
    (e e2 : YVal) (f : Bool) (hwf : wfEntry e = true)
    (h : processLinter comps flavor e = .ok (e2, f)) :
    f = true ↔ entryCarries flavor e2 ≠ entryCarries flavor e := by
  rcases processLinter_cases comps flavor e (e2, f) h with
    ⟨hnm, hr⟩ | ⟨m, he, hname, hr⟩ | ⟨m, m1, he, hname, hm1, hbr⟩
  · rw [Prod.mk.injEq] at hr
    rw [hr.1, hr.2]; simp
  · rw [Prod.mk.injEq] at hr
    rw [hr.1, hr.2]; simp
  · subst he
    by_cases hdk : hasKey m ("descriptor_flavors") = true
    · have hm1m : m1 = m := by rw [hm1, if_pos hdk]
      subst hm1m
      rcases hbr with ⟨hin, hpc, hr⟩ | ⟨hin, l, hl, hany, hr⟩ |
        ⟨hin, hpc, hr⟩ | ⟨hin, l, hl, hany, hr⟩ <;> rw [Prod.mk.injEq] at hr
      · rw [hr.1, hr.2]; simp
      · rw [hr.1, hr.2]
        rw [entryCarries_map_list flavor _ _ (mlookup_msetKey_self m1 _ _),
            entryCarries_map_list flavor _ _ hl, hany, List.any_append]
        simp [isStrEq]
      · rw [hr.1, hr.2]; simp
      · rw [hr.1, hr.2]
        have hnd : strNodup l = true := by
          rcases wfEntry_flavors m1 hname hwf with hn | ⟨fl, hfl, hnd⟩
          · rw [hn] at hl; cases hl
          · rw [hfl] at hl
            simp only [Option.some.injEq, YVal.list.injEq] at hl
            rw [← hl]; exact hnd
        rw [entryCarries_map_list flavor _ _ (mlookup_msetKey_self m1 _ _),
            entryCarries_map_list flavor _ _ hl, hany,
            removeFirstStr_no_more flavor l hnd]
        simp
    · have hm1m : m1 = msetKey m ("descriptor_flavors") (YVal.list []) := by
        rw [hm1, if_neg hdk]
      have hlk : mlookup m ("descriptor_flavors") = none := by
        rcases hn : mlookup m ("descriptor_flavors") with _ | v
        · rfl
        · exact absurd (hasKey_some m _ v hn) hdk
      have hm1lk : mlookup m1 ("descriptor_flavors") = some (YVal.list []) := by
        rw [hm1m]; exact mlookup_msetKey_self _ _ _
      rcases hbr with ⟨hin, hpc, hr⟩ | ⟨hin, l, hl, hany, hr⟩ |
        ⟨hin, hpc, hr⟩ | ⟨hin, l, hl, hany, hr⟩ <;> rw [Prod.mk.injEq] at hr
      · rw [hm1lk] at hpc
        simp [pyContains] at hpc
      · rw [hm1lk] at hl
        simp only [Option.some.injEq, YVal.list.injEq] at hl
        subst hl
        rw [hr.1, hr.2]
        rw [entryCarries_map_list flavor _ _ (mlookup_msetKey_self m1 _ _),
            entryCarries_map_none flavor m hlk]
        simp [isStrEq]
      · rw [hr.1, hr.2]
        rw [entryCarries_map_list flavor _ _ hm1lk,
            entryCarries_map_none flavor m hlk]
        simp
      · rw [hm1lk] at hl
        simp only [Option.some.injEq, YVal.list.injEq] at hl
        subst hl
        cases hany

/-- An entry that carries the flavor after processing, and whose
`linter_name` is the string `n`, must have `n` among the components. -/
theorem processLinter_carrier_comps (comps : List String) (flavor : String)
    (e e2 : YVal) (f : Bool) (n : String) (hwf : wfEntry e = true)
    (h : processLinter comps flavor e = .ok (e2, f))
    (hc : entryCarries flavor e2 = true) (hn : entryName e2 = some n) :
    n ∈ comps := by
  rcases processLinter_cases comps flavor e (e2, f) h with
    ⟨hnm, hr⟩ | ⟨m, he, hname, hr⟩ | ⟨m, m1, he, hname, hm1, hbr⟩
  · rw [Prod.mk.injEq] at hr
    rw [hr.1] at hn
    cases e with
    | map m => exact absurd rfl (hnm m)
    | str s => exact Option.noConfusion (hn : (none : Option String) = some n)
    | list l => exact Option.noConfusion (hn : (none : Option String) = some n)
    | scalar i => exact Option.noConfusion (hn : (none : Option String) = some n)
  · rw [Prod.mk.injEq] at hr
    rw [hr.1] at hn
    subst he
    exact absurd (hasKey_some m _ _ (entryName_elim m n hn)) (by rw [hname]; exact Bool.false_ne_true)
  · subst he
    have hln : mlookup m1 ("linter_name") = mlookup m ("linter_name") := by
      rw [hm1]; exact mlookup_m1_name m
    have hne : entryName (YVal.map m) = some n := by
      rw [← processLinter_name comps flavor (YVal.map m) e2 f h]; exact hn
    have hlkn : mlookup m ("linter_name") = some (YVal.str n) := entryName_elim m n hne
    rcases hbr with ⟨hin, hpc, hr⟩ | ⟨hin, l, hl, hany, hr⟩ |
      ⟨hin, hpc, hr⟩ | ⟨hin, l, hl, hany, hr⟩ <;> rw [Prod.mk.injEq] at hr
    · rw [hln, hlkn] at hin
      simp only [Option.getD_some] at hin
      exact (inComps_iff comps n).mp hin
    · rw [hln, hlkn] at hin
      simp only [Option.getD_some] at hin
      exact (inComps_iff comps n).mp hin
    · exfalso
      rw [hr.1] at hc
      rcases hmd : mlookup m1 ("descriptor_flavors") with _ | v
      · rw [entryCarries_map_none flavor m1 hmd] at hc
        cases hc
      · rw [hmd] at hpc
        simp only [Option.getD_some] at hpc
        cases v with
        | list fl =>
          rw [entryCarries_map_list flavor m1 fl hmd] at hc
          simp only [pyContains, Except.ok.injEq] at hpc
          rw [hc] at hpc
          cases hpc
        | str t => simp [entryCarries, hmd] at hc
        | map mm => simp [entryCarries, hmd] at hc
        | scalar i => simp [entryCarries, hmd] at hc
    · exfalso
      rw [hr.1] at hc
      rw [entryCarries_map_list flavor _ _ (mlookup_msetKey_self m1 _ _)] at hc
      by_cases hdk : hasKey m ("descriptor_flavors") = true
      · have hm1m : m1 = m := by rw [hm1, if_pos hdk]
        subst hm1m
        have hnd : strNodup l = true := by
          rcases wfEntry_flavors m1 hname hwf with hw | ⟨fl, hfl, hnd⟩
          · rw [hw] at hl; cases hl
          · rw [hfl] at hl
            simp only [Option.some.injEq, YVal.list.injEq] at hl
            rw [← hl]; exact hnd
        rw [removeFirstStr_no_more flavor l hnd] at hc
        cases hc
      · have hm1m : m1 = msetKey m ("descriptor_flavors") (YVal.list []) := by
          rw [hm1, if_neg hdk]
        have hm1lk : mlookup m1 ("descriptor_flavors") = some (YVal.list []) := by
          rw [hm1m]; exact mlookup_msetKey_self _ _ _
        rw [hm1lk] at hl
        simp only [Option.some.injEq, YVal.list.injEq] at hl
        subst hl
        cases hc

/-- An entry whose `linter_name` is a desired component carries the flavor
after processing. -/
theorem processLinter_comps_carrier (comps : List String) (flavor : String)
    (e e2 : YVal) (f : Bool) (n : String) (hwf : wfEntry e = true)
    (h : processLinter comps flavor e = .ok (e2, f))
    (hn : entryName e = some n) (hmem : n ∈ comps) :
    entryCarries flavor e2 = true := by
  rcases processLinter_cases comps flavor e (e2, f) h with
    ⟨hnm, hr⟩ | ⟨m, he, hname, hr⟩ | ⟨m, m1, he, hname, hm1, hbr⟩
  · cases e with
    | map m => exact absurd rfl (hnm m)
    | str s => exact Option.noConfusion (hn : (none : Option String) = some n)
    | list l => exact Option.noConfusion (hn : (none : Option String) = some n)
    | scalar i => exact Option.noConfusion (hn : (none : Option String) = some n)
  · subst he
    exact absurd (hasKey_some m _ _ (entryName_elim m n hn)) (by rw [hname]; exact Bool.false_ne_true)
  · subst he
    have hln : mlookup m1 ("linter_name") = mlookup m ("linter_name") := by
      rw [hm1]; exact mlookup_m1_name m
    have hlkn : mlookup m ("linter_name") = some (YVal.str n) := entryName_elim m n hn
    have hinval : comps.any
        (fun c => isStrEq c ((mlookup m1 ("linter_name")).getD (.scalar 0))) = true := by
      rw [hln, hlkn]
      simp only [Option.getD_some]
      exact (inComps_iff comps n).mpr hmem
    rcases hbr with ⟨hin, hpc, hr⟩ | ⟨hin, l, hl, hany, hr⟩ |
      ⟨hin, hpc, hr⟩ | ⟨hin, l, hl, hany, hr⟩ <;> rw [Prod.mk.injEq] at hr
    · rw [hr.1]
      rcases hmd : mlookup m1 ("descriptor_flavors") with _ | v
      · rw [hmd] at hpc
        exact Except.noConfusion hpc
      · rw [hmd] at hpc
        simp only [Option.getD_some] at hpc
        cases v with
        | list fl =>
          rw [entryCarries_map_list flavor m1 fl hmd]
          simp only [pyContains, Except.ok.injEq] at hpc
          exact hpc
        | str t =>
          exfalso
          by_cases hdk : hasKey m ("descriptor_flavors") = true
          · have hm1m : m1 = m := by rw [hm1, if_pos hdk]
            subst hm1m
            rcases wfEntry_flavors m1 hname hwf with hw | ⟨fl, hfl, _⟩
            · rw [hw] at hmd; cases hmd
            · rw [hfl] at hmd
              simp only [Option.some.injEq] at hmd
              cases hmd
          · have hm1m : m1 = msetKey m ("descriptor_flavors") (YVal.list []) := by
              rw [hm1, if_neg hdk]
            have hm1lk : mlookup m1 ("descriptor_flavors") = some (YVal.list []) := by
              rw [hm1m]; exact mlookup_msetKey_self _ _ _
            rw [hm1lk] at hmd
            simp only [Option.some.injEq] at hmd
            cases hmd
        | map mm =>
          exfalso
          by_cases hdk : hasKey m ("descriptor_flavors") = true
          · have hm1m : m1 = m := by rw [hm1, if_pos hdk]
            subst hm1m
            rcases wfEntry_flavors m1 hname hwf with hw | ⟨fl, hfl, _⟩
            · rw [hw] at hmd; cases hmd
            · rw [hfl] at hmd
              simp only [Option.some.injEq] at hmd
              cases hmd
          · have hm1m : m1 = msetKey m ("descriptor_flavors") (YVal.list []) := by
              rw [hm1, if_neg hdk]
            have hm1lk : mlookup m1 ("descriptor_flavors") = some (YVal.list []) := by
              rw [hm1m]; exact mlookup_msetKey_self _ _ _
            rw [hm1lk] at hmd
            simp only [Option.some.injEq] at hmd
            cases hmd
        | scalar i =>
          exact Except.noConfusion hpc
    · rw [hr.1]
      rw [entryCarries_map_list flavor _ _ (mlookup_msetKey_self m1 _ _)]
      rw [List.any_append]
      simp [isStrEq]
    · rw [hin] at hinval
      cases hinval
    · rw [hin] at hinval
      cases hinval

/-- An entry with a `linter_name` but without a `descriptor_flavors` key
gets the key inserted: empty when excluded, `[flavor]` when desired. -/
theorem processLinter_insert_key (comps : List String) (flavor : String)
    (m : List (String × YVal)) (e2 : YVal) (f : Bool)
    (hname : hasKey m ("linter_name") = true)
    (hdk : hasKey m ("descriptor_flavors") = false)
    (h : processLinter comps flavor (.map m) = .ok (e2, f)) :
    ∃ m2, e2 = YVal.map m2 ∧ mlookup m2 ("descriptor_flavors") =
      some (YVal.list
        (if comps.any (fun c => isStrEq c ((mlookup m ("linter_name")).getD (.scalar 0))) = true
         then [YVal.str flavor] else [])) := by
  rcases processLinter_cases comps flavor (.map m) (e2, f) h with
    ⟨hnm, hr⟩ | ⟨m0, he, hname0, hr⟩ | ⟨m0, m1, he, hname0, hm1, hbr⟩
  · exact absurd rfl (hnm m)
  · injection he with he2
    subst he2
    rw [hname] at hname0
    cases hname0
  · injection he with he2
    subst he2
    have hdk2 : ¬ hasKey m ("descriptor_flavors") = true := by
      rw [hdk]; exact Bool.false_ne_true
    have hm1m : m1 = msetKey m ("descriptor_flavors") (YVal.list []) := by
      rw [hm1, if_neg hdk2]
    have hm1lk : mlookup m1 ("descriptor_flavors") = some (YVal.list []) := by
      rw [hm1m]; exact mlookup_msetKey_self _ _ _
    have hln : mlookup m1 ("linter_name") = mlookup m ("linter_name") := by
      rw [hm1]; exact mlookup_m1_name m
    rcases hbr with ⟨hin, hpc, hr⟩ | ⟨hin, l, hl, hany, hr⟩ |
      ⟨hin, hpc, hr⟩ | ⟨hin, l, hl, hany, hr⟩ <;> rw [Prod.mk.injEq] at hr
    · rw [hm1lk] at hpc
      simp [pyContains] at hpc
    · rw [hm1lk] at hl
      simp only [Option.some.injEq, YVal.list.injEq] at hl
      subst hl
      rw [hln] at hin
      refine ⟨_, hr.1, ?_⟩
      rw [mlookup_msetKey_self, if_pos hin]
      rfl
    · rw [hln] at hin
      refine ⟨m1, hr.1, ?_⟩
      rw [hm1lk, if_neg (by rw [hin]; exact Bool.false_ne_true)]
    · rw [hm1lk] at hl
      simp only [Option.some.injEq, YVal.list.injEq] at hl
      subst hl
      cases hany

/-- Reprocessing an already processed well-formed entry is a no-op that
does not set the `modified` flag. -/
theorem processLinter_idem (comps : List String) (flavor : String)
    (e e2 : YVal) (f : Bool) (hwf : wfEntry e = true)
    (h : processLinter comps flavor e = .ok (e2, f)) :
    processLinter comps flavor e2 = .ok (e2, false) := by
  rcases processLinter_cases comps flavor e (e2, f) h with
    ⟨hnm, hr⟩ | ⟨m, he, hname, hr⟩ | ⟨m, m1, he, hname, hm1, hbr⟩
  · rw [Prod.mk.injEq] at hr
    rw [hr.1]
    cases e with
    | map m => exact absurd rfl (hnm m)
    | str s => rfl
    | list l => rfl
    | scalar i => rfl
  · rw [Prod.mk.injEq] at hr
    rw [hr.1]
    subst he
    simp only [processLinter]
    rw [if_neg (by rw [hname]; exact Bool.false_ne_true)]
  · subst he
    have hln : mlookup m1 ("linter_name") = mlookup m ("linter_name") := by
      rw [hm1]; exact mlookup_m1_name m
    have hname1 : hasKey m1 ("linter_name") = true := by
      rw [hasKey, hln]; exact hname
    rcases hbr with ⟨hin, hpc, hr⟩ | ⟨hin, l, hl, hany, hr⟩ |
      ⟨hin, hpc, hr⟩ | ⟨hin, l, hl, hany, hr⟩ <;> rw [Prod.mk.injEq] at hr
    · rw [hr.1]
      rcases hmd : mlookup m1 ("descriptor_flavors") with _ | v
      · rw [hmd] at hpc
        exact Except.noConfusion hpc
      · rw [hmd] at hpc
        simp only [Option.getD_some] at hpc
        exact processLinter_noop comps flavor m1 true hname1 v hmd hin hpc
    · rw [hr.1]
      have hname2 : hasKey (msetKey m1 ("descriptor_flavors")
          (YVal.list (l ++ [YVal.str flavor]))) ("linter_name") = true := by
        rw [hasKey, mlookup_msetKey_ne _ _ _ _ key_df_ne_ln, hln]
        exact hname
      refine processLinter_noop comps flavor _ true hname2 _
        (mlookup_msetKey_self m1 _ _) ?_ ?_
      · rw [mlookup_msetKey_ne _ _ _ _ key_df_ne_ln]
        exact hin
      · simp only [pyContains, Except.ok.injEq, List.any_append]
        simp [isStrEq]
    · rw [hr.1]
      rcases hmd : mlookup m1 ("descriptor_flavors") with _ | v
      · rw [hmd] at hpc
        exact Except.noConfusion hpc
      · rw [hmd] at hpc
        simp only [Option.getD_some] at hpc
        exact processLinter_noop comps flavor m1 false hname1 v hmd hin hpc
    · rw [hr.1]
      have hnd : strNodup l = true := by
        by_cases hdk : hasKey m ("descriptor_flavors") = true
        · have hm1m : m1 = m := by rw [hm1, if_pos hdk]
          subst hm1m
          rcases wfEntry_flavors m1 hname hwf with hw | ⟨fl, hfl, hnd⟩
          · rw [hw] at hl; cases hl
          · rw [hfl] at hl
            simp only [Option.some.injEq, YVal.list.injEq] at hl
            rw [← hl]; exact hnd
        · have hm1m : m1 = msetKey m ("descriptor_flavors") (YVal.list []) := by
            rw [hm1, if_neg hdk]
          have hm1lk : mlookup m1 ("descriptor_flavors") = some (YVal.list []) := by
            rw [hm1m]; exact mlookup_msetKey_self _ _ _
          rw [hm1lk] at hl
          simp only [Option.some.injEq, YVal.list.injEq] at hl
          rw [← hl]; rfl
      have hname2 : hasKey (msetKey m1 ("descriptor_flavors")
          (YVal.list (removeFirstStr flavor l))) ("linter_name") = true := by
        rw [hasKey, mlookup_msetKey_ne _ _ _ _ key_df_ne_ln, hln]
        exact hname
      refine processLinter_noop comps flavor _ false hname2 _
        (mlookup_msetKey_self m1 _ _) ?_ ?_
      · rw [mlookup_msetKey_ne _ _ _ _ key_df_ne_ln]
        exact hin
      · simp only [pyContains, Except.ok.injEq]
        exact removeFirstStr_no_more flavor l hnd

theorem processLinters_nil (comps : List String) (flavor : String)
    (ls2 : List YVal) (md : Bool)
    (h : processLinters comps flavor [] = .ok (ls2, md)) :
    ls2 = [] ∧ md = false := by
  rw [processLinters] at h
  simp only [Except.ok.injEq, Prod.mk.injEq] at h
  exact ⟨h.1.symm, h.2.symm⟩

theorem processLinters_cons (comps : List String) (flavor : String)
    (a : YVal) (rest ls2 : List YVal) (md : Bool)
    (h : processLinters comps flavor (a :: rest) = .ok (ls2, md)) :
    ∃ b fb rest2 mdr, processLinter comps flavor a = .ok (b, fb) ∧
      processLinters comps flavor rest = .ok (rest2, mdr) ∧
      ls2 = b :: rest2 ∧ md = (fb || mdr) := by
  rw [processLinters] at h
  rcases hA : processLinter comps flavor a with eA | ⟨b0, f0⟩
  · rw [hA] at h; cases h
  · rw [hA] at h
    rcases hR : processLinters comps flavor rest with eR | ⟨r0, m0⟩
    · rw [hR] at h; cases h
    · rw [hR] at h
      simp only [Except.ok.injEq, Prod.mk.injEq] at h
      exact ⟨b0, f0, r0, m0, rfl, rfl, h.1.symm, h.2.symm⟩

theorem mem_entryNames (n : String) (l : List YVal) :
    n ∈ entryNames l ↔ ∃ e ∈ l, entryName e = some n := by
  simp [entryNames, List.mem_filterMap]

theorem mem_carrierNames (n : String) (flavor : String) (l : List YVal) :
    n ∈ carrierNames flavor l ↔
      ∃ e ∈ l, entryCarries flavor e = true ∧ entryName e = some n := by
  simp only [carrierNames, List.mem_filterMap, List.mem_filter]
  constructor
  · rintro ⟨e, ⟨he, hc⟩, hn⟩
    exact ⟨e, he, hc, hn⟩
  · rintro ⟨e, he, hc, hn⟩
    exact ⟨e, ⟨he, hc⟩, hn⟩

/-- List-level set equivalence: after processing, the names of flavor
carriers are exactly the desired components present among the entries. -/
theorem processLinters_carrier_iff (comps : List String) (flavor : String) :
    ∀ (ls ls2 : List YVal) (md : Bool),
    ls.all wfEntry = true →
    processLinters comps flavor ls = .ok (ls2, md) →
    ∀ n : String, n ∈ carrierNames flavor ls2 ↔ n ∈ comps ∧ n ∈ entryNames ls2
  | [], ls2, md, hwf, h, n => by
    obtain ⟨h1, _⟩ := processLinters_nil comps flavor ls2 md h
    subst h1
    simp [carrierNames, entryNames]
  | a :: rest, ls2, md, hwf, h, n => by
    obtain ⟨b, fb, rest2, mdr, hA, hR, hls2, _⟩ :=
      processLinters_cons comps flavor a rest ls2 md h
    subst hls2
    rw [List.all_cons, Bool.and_eq_true] at hwf
    have ih := processLinters_carrier_iff comps flavor rest rest2 mdr hwf.2 hR n
    constructor
    · intro hmem
      rcases (mem_carrierNames n flavor (b :: rest2)).mp hmem with ⟨e, he, hc, hn⟩
      rcases List.mem_cons.mp he with he1 | he1
      · subst he1
        refine ⟨processLinter_carrier_comps comps flavor a e fb n hwf.1 hA hc hn, ?_⟩
        exact (mem_entryNames n (e :: rest2)).mpr ⟨e, List.mem_cons_self e rest2, hn⟩
      · have := ih.mp ((mem_carrierNames n flavor rest2).mpr ⟨e, he1, hc, hn⟩)
        refine ⟨this.1, ?_⟩
        rcases (mem_entryNames n rest2).mp this.2 with ⟨e2, he2, hn2⟩
        exact (mem_entryNames n (b :: rest2)).mpr ⟨e2, List.mem_cons_of_mem b he2, hn2⟩
    · rintro ⟨hcomp, hnames⟩
      rcases (mem_entryNames n (b :: rest2)).mp hnames with ⟨e, he, hn⟩
      rcases List.mem_cons.mp he with he1 | he1
      · subst he1
        have hna : entryName a = some n := by
          rw [← processLinter_name comps flavor a e fb hA]; exact hn
        have hc := processLinter_comps_carrier comps flavor a e fb n hwf.1 hA hna hcomp
        exact (mem_carrierNames n flavor (e :: rest2)).mpr
          ⟨e, List.mem_cons_self e rest2, hc, hn⟩
      · have := ih.mpr ⟨hcomp, (mem_entryNames n rest2).mpr ⟨e, he1, hn⟩⟩
        rcases (mem_carrierNames n flavor rest2).mp this with ⟨e2, he2, hc2, hn2⟩
        exact (mem_carrierNames n flavor (b :: rest2)).mpr
          ⟨e2, List.mem_cons_of_mem b he2, hc2, hn2⟩

/-- The document flag is the disjunction of `entryWouldChange` over the
entries. -/
theorem processLinters_md (comps : List String) (flavor : String) :
    ∀ (ls ls2 : List YVal) (md : Bool),
    processLinters comps flavor ls = .ok (ls2, md) →
    md = ls.any (entryWouldChange comps flavor)
  | [], ls2, md, h => by
    obtain ⟨_, h2⟩ := processLinters_nil comps flavor ls2 md h
    rw [h2, List.any_nil]
  | a :: rest, ls2, md, h => by
    obtain ⟨b, fb, rest2, mdr, hA, hR, _, hmd⟩ :=
      processLinters_cons comps flavor a rest ls2 md h
    rw [hmd, List.any_cons, ← processLinter_flag comps flavor a b fb hA,
      processLinters_md comps flavor rest rest2 mdr hR]

/-- Reprocessing an already processed well-formed entry list is a no-op. -/
theorem processLinters_idem (comps : List String) (flavor : String) :
    ∀ (ls ls2 : List YVal) (md : Bool),
    ls.all wfEntry = true →
    processLinters comps flavor ls = .ok (ls2, md) →
    processLinters comps flavor ls2 = .ok (ls2, false)
  | [], ls2, md, hwf, h => by
    obtain ⟨h1, _⟩ := processLinters_nil comps flavor ls2 md h
    subst h1
    rfl
  | a :: rest, ls2, md, hwf, h => by
    obtain ⟨b, fb, rest2, mdr, hA, hR, hls2, _⟩ :=
      processLinters_cons comps flavor a rest ls2 md h
    subst hls2
    rw [List.all_cons, Bool.and_eq_true] at hwf
    rw [processLinters,
      processLinter_idem comps flavor a b fb hwf.1 hA,
      processLinters_idem comps flavor rest rest2 mdr hwf.2 hR]
    rfl

/-- The document flag is set exactly when some entry's carry status for the
target flavor changed. -/
theorem processLinters_flag_iff (comps : List String) (flavor : String) :
    ∀ (ls ls2 : List YVal) (md : Bool),
    ls.all wfEntry = true →
    processLinters comps flavor ls = .ok (ls2, md) →
    (md = true ↔ ∃ pr ∈ ls.zip ls2,
      entryCarries flavor pr.1 ≠ entryCarries flavor pr.2)
  | [], ls2, md, hwf, h => by
    obtain ⟨h1, h2⟩ := processLinters_nil comps flavor ls2 md h
    subst h1; subst h2
    simp
  | a :: rest, ls2, md, hwf, h => by
    obtain ⟨b, fb, rest2, mdr, hA, hR, hls2, hmd⟩ :=
      processLinters_cons comps flavor a rest ls2 md h
    subst hls2
    rw [List.all_cons, Bool.and_eq_true] at hwf
    have ih := processLinters_flag_iff comps flavor rest rest2 mdr hwf.2 hR
    have hf := processLinter_flag_carries comps flavor a b fb hwf.1 hA
    rw [hmd, List.zip_cons_cons]
    simp only [Bool.or_eq_true, List.mem_cons]
    constructor
    · rintro (h1 | h1)
      · refine ⟨(a, b), Or.inl rfl, ?_⟩
        exact (hf.mp h1).symm
      · rcases ih.mp h1 with ⟨pr, hpr, hne⟩
        exact ⟨pr, Or.inr hpr, hne⟩
    · rintro ⟨pr, hpr | hpr, hne⟩
      · subst hpr
        refine Or.inl (hf.mpr ?_)
        exact hne.symm
      · exact Or.inr (ih.mpr ⟨pr, hpr, hne⟩)

/-- Inserted empty `descriptor_flavors` keys at list level. -/
theorem processLinters_insert (comps : List String) (flavor : String) :
    ∀ (ls ls2 : List YVal) (md : Bool),
    processLinters comps flavor ls = .ok (ls2, md) →
    ∀ pr ∈ ls.zip ls2, ∀ m : List (String × YVal),
    pr.1 = YVal.map m → hasKey m ("linter_name") = true →
    hasKey m ("descriptor_flavors") = false →
    ∃ m2, pr.2 = YVal.map m2 ∧ mlookup m2 ("descriptor_flavors") =
      some (YVal.list
        (if comps.any (fun c => isStrEq c ((mlookup m ("linter_name")).getD (.scalar 0))) = true
         then [YVal.str flavor] else []))
  | [], ls2, md, h => by
    obtain ⟨h1, _⟩ := processLinters_nil comps flavor ls2 md h
    subst h1
    intro pr hpr
    simp at hpr
  | a :: rest, ls2, md, h => by
    obtain ⟨b, fb, rest2, mdr, hA, hR, hls2, _⟩ :=
      processLinters_cons comps flavor a rest ls2 md h
    subst hls2
    intro pr hpr m hm hname hdk
    rw [List.zip_cons_cons, List.mem_cons] at hpr
    rcases hpr with hpr | hpr
    · subst hpr
      simp only at hm
      subst hm
      exact processLinter_insert_key comps flavor m b fb hname hdk hA
    · exact processLinters_insert comps flavor rest rest2 mdr hR pr hpr m hm hname hdk

/-- Iterating a mapping yields its keys and a string its characters; none
of these is itself a record, so no entry is modified. -/
theorem processLinters_nonmaps (comps : List String) (flavor : String) :
    ∀ l : List YVal, (∀ e ∈ l, ∀ m : List (String × YVal), e ≠ .map m) →
    processLinters comps flavor l = .ok (l, false)
  | [], _ => rfl
  | a :: rest, hl => by
    have ha : processLinter comps flavor a = .ok (a, false) := by
      cases a with
      | map m => exact absurd rfl (hl _ (List.mem_cons_self _ _) m)
      | str s => rfl
      | list l2 => rfl
      | scalar i => rfl
    rw [processLinters, ha,
      processLinters_nonmaps comps flavor rest
        (fun e he => hl e (List.mem_cons_of_mem a he))]
    rfl

theorem docLinters_msetKey (m : List (String × YVal)) (ls2 : List YVal) :
    docLinters (.map (msetKey m ("linters") (.list ls2))) = ls2 := by
  simp only [docLinters]
  rw [mlookup_msetKey_self]

/-- Exhaustive description of the outcomes of `updateDoc` on inputs that do
not raise: either the document has no sequence of Linter Entries and is
returned unchanged with a clear flag, or its `linters` sequence is
processed and replaced. -/
theorem updateDoc_cases (comps : List String) (flavor : String)
    (data : YVal) (r : YVal × Bool) (h : updateDoc comps flavor data = .ok r) :
    (r = (data, false) ∧ docLinters data = []) ∨
    (∃ m ls ls2 md, data = YVal.map m ∧ mlookup m ("linters") = some (.list ls) ∧
      processLinters comps flavor ls = .ok (ls2, md) ∧
      r = (.map (msetKey m ("linters") (.list ls2)), md)) := by
  cases data with
  | str s =>
    left
    exact ⟨((Except.ok.injEq _ _).mp h).symm, rfl⟩
  | list l =>
    left
    exact ⟨((Except.ok.injEq _ _).mp h).symm, rfl⟩
  | scalar i =>
    left
    exact ⟨((Except.ok.injEq _ _).mp h).symm, rfl⟩
  | map m =>
    by_cases hk : hasKey m ("linters") = true
    · rw [updateDoc, if_pos hk] at h
      rcases hlk : mlookup m ("linters") with _ | v
      · exfalso
        have hfalse : hasKey m ("linters") = false := by
          simp [hasKey, hlk]
        rw [hfalse] at hk
        cases hk
      · rw [hlk] at h
        simp only [Option.getD_some] at h
        cases v with
        | list ls =>
          dsimp only at h
          rcases hp : processLinters comps flavor ls with e0 | r0
          · rw [hp] at h; cases h
          · rw [hp] at h
            right
            refine ⟨m, ls, r0.1, r0.2, rfl, hlk, ?_, ((Except.ok.injEq _ _).mp h).symm⟩
            rw [hp]
        | map m2 =>
          left
          dsimp only at h
          rw [processLinters_nonmaps comps flavor _ (by
            intro e he m3 hc
            rcases List.mem_map.mp he with ⟨kv, _, hkv⟩
            rw [← hkv] at hc
            cases hc)] at h
          refine ⟨((Except.ok.injEq _ _).mp h).symm, ?_⟩
          simp only [docLinters]
          rw [hlk]
        | str s =>
          left
          dsimp only at h
          rw [processLinters_nonmaps comps flavor _ (by
            intro e he m3 hc
            rcases List.mem_map.mp he with ⟨c, _, hkv⟩
            rw [← hkv] at hc
            cases hc)] at h
          refine ⟨((Except.ok.injEq _ _).mp h).symm, ?_⟩
          simp only [docLinters]
          rw [hlk]
        | scalar i =>
          exact Except.noConfusion h
    · rw [updateDoc, if_neg hk] at h
      left
      refine ⟨((Except.ok.injEq _ _).mp h).symm, ?_⟩
      simp only [docLinters]
      rcases hlk : mlookup m ("linters") with _ | v
      · rfl
      · exact absurd (hasKey_some m _ v hlk) hk

/-- Set equivalence at document level (the heart of claim C1). -/
theorem updateDoc_carrier_iff (comps : List String) (flavor : String)
    (data data2 : YVal) (md : Bool)
    (hwf : wfDoc data = true)
    (h : updateDoc comps flavor data = .ok (data2, md)) :
    ∀ n : String, n ∈ carrierNames flavor (docLinters data2) ↔
      n ∈ comps ∧ n ∈ entryNames (docLinters data2) := by
  intro n
  rcases updateDoc_cases comps flavor data (data2, md) h with
    ⟨hr, hdl⟩ | ⟨m, ls, ls2, md2, hdata, hlk, hp, hr⟩
  · rw [Prod.mk.injEq] at hr
    rw [hr.1, hdl]
    simp [carrierNames, entryNames]
  · rw [Prod.mk.injEq] at hr
    rw [hr.1, docLinters_msetKey]
    have hwf2 : ls.all wfEntry = true := by
      rw [wfDoc, hdata] at hwf
      simp only [docLinters] at hwf
      rw [hlk] at hwf
      exact hwf
    exact processLinters_carrier_iff comps flavor ls ls2 md2 hwf2 hp n

/-- The document flag equals the disjunction of `entryWouldChange` over the
document's entries. -/
theorem updateDoc_md (comps : List String) (flavor : String)
    (data data2 : YVal) (md : Bool)
    (h : updateDoc comps flavor data = .ok (data2, md)) :
    md = (docLinters data).any (entryWouldChange comps flavor) := by
  rcases updateDoc_cases comps flavor data (data2, md) h with
    ⟨hr, hdl⟩ | ⟨m, ls, ls2, md2, hdata, hlk, hp, hr⟩
  · rw [Prod.mk.injEq] at hr
    rw [hr.2, hdl, List.any_nil]
  · rw [Prod.mk.injEq] at hr
    rw [hr.2, hdata]
    simp only [docLinters]
    rw [hlk]
    exact processLinters_md comps flavor ls ls2 md2 hp

/-- The root-level keys of a document are never touched: reconciliation
rewrites only the `linters` sequence. -/
theorem updateDoc_root (comps : List String) (flavor : String)
    (data data2 : YVal) (md : Bool)
    (h : updateDoc comps flavor data = .ok (data2, md)) :
    rootFlavors data2 = rootFlavors data ∧
    hasInstallMarker data2 = hasInstallMarker data := by
  rcases updateDoc_cases comps flavor data (data2, md) h with
    ⟨hr, hdl⟩ | ⟨m, ls, ls2, md2, hdata, hlk, hp, hr⟩
  · rw [Prod.mk.injEq] at hr
    rw [hr.1]
    exact ⟨rfl, rfl⟩
  · rw [Prod.mk.injEq] at hr
    rw [hr.1, hdata]
    constructor
    · simp only [rootFlavors]
      rw [mlookup_msetKey_ne _ _ _ _ key_linters_ne_df]
    · simp only [hasInstallMarker, hasKey]
      rw [mlookup_msetKey_ne _ _ _ _ key_linters_ne_install]

/-- Running `updateDoc` on the result of a run is a no-op with a clear
flag. -/
theorem updateDoc_idem (comps : List String) (flavor : String)
    (data data2 : YVal) (md : Bool)
    (hwf : wfDoc data = true)
    (h : updateDoc comps flavor data = .ok (data2, md)) :
    updateDoc comps flavor data2 = .ok (data2, false) := by
  rcases updateDoc_cases comps flavor data (data2, md) h with
    ⟨hr, hdl⟩ | ⟨m, ls, ls2, md2, hdata, hlk, hp, hr⟩
  · rw [Prod.mk.injEq] at hr
    rw [hr.1]
    rw [hr.1, hr.2] at h
    exact h
  · rw [Prod.mk.injEq] at hr
    have hwf2 : ls.all wfEntry = true := by
      rw [wfDoc, hdata] at hwf
      simp only [docLinters] at hwf
      rw [hlk] at hwf
      exact hwf
    have hidem := processLinters_idem comps flavor ls ls2 md2 hwf2 hp
    rw [hr.1]
    rw [updateDoc]
    rw [if_pos (hasKey_some _ _ _ (mlookup_msetKey_self m ("linters") (.list ls2)))]
    rw [mlookup_msetKey_self]
    simp only [Option.getD_some]
    rw [hidem]
    dsimp only
    rw [msetKey_msetKey]

/-- The document flag is set exactly when some entry's carry status
changed (document level). -/
theorem updateDoc_flag_iff (comps : List String) (flavor : String)
    (data data2 : YVal) (md : Bool)
    (hwf : wfDoc data = true)
    (h : updateDoc comps flavor data = .ok (data2, md)) :
    (md = true ↔ ∃ pr ∈ (docLinters data).zip (docLinters data2),
      entryCarries flavor pr.1 ≠ entryCarries flavor pr.2) := by
  rcases updateDoc_cases comps flavor data (data2, md) h with
    ⟨hr, hdl⟩ | ⟨m, ls, ls2, md2, hdata, hlk, hp, hr⟩
  · rw [Prod.mk.injEq] at hr
    rw [hr.1, hr.2, hdl]
    simp
  · rw [Prod.mk.injEq] at hr
    have hdl : docLinters data = ls := by
      rw [hdata]
      simp only [docLinters]
      rw [hlk]
    have hwf2 : ls.all wfEntry = true := by
      rw [wfDoc, hdl] at hwf
      exact hwf
    rw [hr.1, hr.2, hdl, docLinters_msetKey]
    exact processLinters_flag_iff comps flavor ls ls2 md2 hwf2 hp

/-- Inserted empty `descriptor_flavors` keys at document level. -/
theorem updateDoc_insert (comps : List String) (flavor : String)
    (data data2 : YVal) (md : Bool)
    (h : updateDoc comps flavor data = .ok (data2, md)) :
    ∀ pr ∈ (docLinters data).zip (docLinters data2), ∀ m : List (String × YVal),
    pr.1 = YVal.map m → hasKey m ("linter_name") = true →
    hasKey m ("descriptor_flavors") = false →
    ∃ m2, pr.2 = YVal.map m2 ∧ mlookup m2 ("descriptor_flavors") =
      some (YVal.list
        (if comps.any (fun c => isStrEq c ((mlookup m ("linter_name")).getD (.scalar 0))) = true
         then [YVal.str flavor] else [])) := by
  rcases updateDoc_cases comps flavor data (data2, md) h with
    ⟨hr, hdl⟩ | ⟨m0, ls, ls2, md2, hdata, hlk, hp, hr⟩
  · rw [Prod.mk.injEq] at hr
    rw [hr.1, hdl]
    intro pr hpr
    simp at hpr
  · rw [Prod.mk.injEq] at hr
    have hdl : docLinters data = ls := by
      rw [hdata]
      simp only [docLinters]
      rw [hlk]
    rw [hr.1, hdl, docLinters_msetKey]
    exact processLinters_insert comps flavor ls ls2 md2 hp

/-- A document that is not record-shaped, or that lacks the `linters`
key, is skipped: returned unchanged with a clear flag. -/
theorem updateDoc_skip (comps : List String) (flavor : String)
    (data : YVal) (hshape : docIsRecordWithLinters data = false) :
    updateDoc comps flavor data = .ok (data, false) := by
  cases data with
  | str s => rfl
  | list l => rfl
  | scalar i => rfl
  | map m =>
    rw [updateDoc]
    rw [if_neg (by rw [docIsRecordWithLinters] at hshape; rw [hshape]; exact Bool.false_ne_true)]

/-- Destructuring of one `updateFile` step on a loaded document. -/
theorem updateFile_some_elim (comps : List String) (flavor : String)
    (data : YVal) (p : YVal × Bool)
    (h : updateFile comps flavor (some data) = .ok p) :
    ∃ d2 md, updateDoc comps flavor data = .ok (d2, md) ∧
      p = (if md then d2 else data, md) := by
  rw [updateFile] at h
  rcases hu : updateDoc comps flavor data with e0 | ⟨d2, md⟩
  · rw [hu] at h; cases h
  · rw [hu] at h
    exact ⟨d2, md, rfl, ((Except.ok.injEq _ _).mp h).symm⟩

/-- Re-running one file step on its own output writes nothing. -/
theorem updateFile_idem (comps : List String) (flavor : String)
    (data disk : YVal) (md : Bool) (hwf : wfDoc data = true)
    (h : updateFile comps flavor (some data) = .ok (disk, md)) :
    updateFile comps flavor (some disk) = .ok (disk, false) := by
  obtain ⟨d2, md2, hu, hp⟩ := updateFile_some_elim comps flavor data (disk, md) h
  rw [Prod.mk.injEq] at hp
  cases md2 with
  | false =>
    simp only [if_false, Bool.false_eq_true] at hp
    rw [hp.1.symm] at hu
    rw [updateFile, hu]
    simp only [if_neg Bool.false_ne_true]
  | true =>
    simp only [if_true] at hp
    have hid := updateDoc_idem comps flavor data d2 true hwf hu
    rw [hp.1.symm] at hid
    rw [updateFile, hid]
    simp only [if_neg Bool.false_ne_true]

theorem updateYaml_nil (comps : List String) (flavor : String)
    (out : List (YVal × Bool))
    (h : updateYamlDescriptors comps flavor [] = .ok out) : out = [] := by
  rw [updateYamlDescriptors] at h
  exact ((Except.ok.injEq _ _).mp h).symm

theorem updateYaml_cons (comps : List String) (flavor : String)
    (d : Option YVal) (rest : List (Option YVal)) (out : List (YVal × Bool))
    (h : updateYamlDescriptors comps flavor (d :: rest) = .ok out) :
    ∃ p rest2, updateFile comps flavor d = .ok p ∧
      updateYamlDescriptors comps flavor rest = .ok rest2 ∧ out = p :: rest2 := by
  rw [updateYamlDescriptors] at h
  rcases hA : updateFile comps flavor d with eA | pA
  · rw [hA] at h; cases h
  · rw [hA] at h
    rcases hR : updateYamlDescriptors comps flavor rest with eR | rR
    · rw [hR] at h; cases h
    · rw [hR] at h
      exact ⟨pA, rR, rfl, rfl, ((Except.ok.injEq _ _).mp h).symm⟩

/-- A load failure at the head of the store aborts the whole sweep. -/
theorem updateYaml_none_aborts (comps : List String) (flavor : String)
    (rest : List (Option YVal)) :
    updateYamlDescriptors comps flavor (none :: rest) = .error () := by
  rw [updateYamlDescriptors]
  rfl

/-- Idempotence of the sweep: re-running on the on-disk results writes
nothing. -/
theorem updateYaml_idem (comps : List String) (flavor : String) :
    ∀ (store : List (Option YVal)) (out : List (YVal × Bool)),
    wfStore store = true →
    updateYamlDescriptors comps flavor store = .ok out →
    updateYamlDescriptors comps flavor (out.map (fun p => some p.1)) =
      .ok (out.map (fun p => (p.1, false)))
  | [], out, _, h => by
    rw [updateYaml_nil comps flavor out h]
    rfl
  | d :: rest, out, hwf, h => by
    obtain ⟨p, rest2, hA, hR, hout⟩ := updateYaml_cons comps flavor d rest out h
    subst hout
    rw [wfStore, List.all_cons, Bool.and_eq_true] at hwf
    cases d with
    | none => exact Except.noConfusion hA
    | some data =>
      have hwfd : wfDoc data = true := by
        simpa using hwf.1
      have hI := updateFile_idem comps flavor data p.1 p.2 hwfd (by
        rw [hA])
      have hIH := updateYaml_idem comps flavor rest rest2 (by rw [wfStore]; exact hwf.2) hR
      simp only [List.map_cons]
      rw [updateYamlDescriptors, hI, hIH]

/-! ## Lemmas about the string machinery -/

theorem occursAtB_iff (needle hay : List Char) (p : Nat) :
    occursAtB needle hay p = true ↔ OccursAt needle hay p := by
  simp [occursAtB, OccursAt]

theorem sliceAt_length (hay : List Char) (p n : Nat)
    (h : p + n ≤ hay.length) : (sliceAt hay p n).length = n := by
  simp only [sliceAt, List.length_take, List.length_drop]
  omega

theorem occursAt_getElem (needle hay : List Char) (p : Nat)
    (h : OccursAt needle hay p) :
    ∀ i, i < needle.length → hay[p + i]? = needle[i]? := by
  intro i hi
  obtain ⟨hb, hs⟩ := h
  conv_rhs => rw [← hs]
  rw [sliceAt, List.getElem?_take_of_lt hi, List.getElem?_drop]

theorem occursAt_of_getElem (needle hay : List Char) (p : Nat)
    (hb : p + needle.length ≤ hay.length)
    (h : ∀ i, i < needle.length → hay[p + i]? = needle[i]?) :
    OccursAt needle hay p := by
  refine ⟨hb, ?_⟩
  apply List.ext_getElem?
  intro i
  by_cases hi : i < needle.length
  · rw [sliceAt, List.getElem?_take_of_lt hi, List.getElem?_drop]
    exact h i hi
  · have h1 : (sliceAt hay p needle.length)[i]? = none := by
      apply List.getElem?_eq_none
      rw [sliceAt_length hay p needle.length hb]
      omega
    have h2 : needle[i]? = none := by
      apply List.getElem?_eq_none
      omega
    rw [h1, h2]

theorem occursAt_length_le (needle hay : List Char) (p : Nat)
    (h : OccursAt needle hay p) : p + needle.length ≤ hay.length := h.1

/-- The needle starts with its own first character at any occurrence. -/
theorem occursAt_head (needle hay : List Char) (p : Nat) (c : Char)
    (h : OccursAt needle hay p) (hc : needle[0]? = some c) :
    hay[p]? = some c := by
  have h0 : 0 < needle.length := by
    cases needle with
    | nil => cases hc
    | cons a l => simp
  have := occursAt_getElem needle hay p h 0 h0
  rw [Nat.add_zero] at this
  rw [this, hc]

theorem getElem?_mem_char (l : List Char) (i : Nat) (c : Char)
    (h : l[i]? = some c) : c ∈ l := by
  have hi : i < l.length := by
    by_contra hc
    rw [List.getElem?_eq_none (by omega)] at h
    cases h
  rw [List.getElem?_eq_getElem hi] at h
  rw [← Option.some.injEq .. |>.mp h]
  exact List.getElem_mem hi

/-- Soundness of the upward scan. -/
theorem strIdxFromAux_sound (needle hay : List Char) :
    ∀ (fuel p q : Nat), strIdxFromAux needle hay fuel p = some q →
    p ≤ q ∧ OccursAt needle hay q ∧
      ∀ r, p ≤ r → r < q → ¬ OccursAt needle hay r
  | 0, p, q, h => by cases h
  | fuel + 1, p, q, h => by
    rw [strIdxFromAux] at h
    by_cases hb : occursAtB needle hay p = true
    · rw [if_pos hb] at h
      obtain hq := (Option.some.injEq .. ).mp h
      subst hq
      exact ⟨Nat.le_refl p, (occursAtB_iff needle hay p).mp hb, by omega⟩
    · rw [if_neg hb] at h
      obtain ⟨h1, h2, h3⟩ := strIdxFromAux_sound needle hay fuel (p + 1) q h
      refine ⟨by omega, h2, ?_⟩
      intro r hr1 hr2
      by_cases hrp : r = p
      · subst hrp
        intro hc
        exact hb ((occursAtB_iff needle hay r).mpr hc)
      · exact h3 r (by omega) hr2

/-- Completeness of the upward scan. -/
theorem strIdxFromAux_complete (needle hay : List Char) :
    ∀ (fuel p r : Nat), OccursAt needle hay r → p ≤ r → r < p + fuel →
    ∃ q, strIdxFromAux needle hay fuel p = some q ∧ q ≤ r
  | 0, p, r, _, hp, hr => by omega
  | fuel + 1, p, r, hocc, hp, hr => by
    rw [strIdxFromAux]
    by_cases hb : occursAtB needle hay p = true
    · rw [if_pos hb]
      exact ⟨p, rfl, hp⟩
    · rw [if_neg hb]
      have hrp : r ≠ p := by
        intro hc
        subst hc
        exact hb ((occursAtB_iff needle hay r).mpr hocc)
      obtain ⟨q, hq1, hq2⟩ := strIdxFromAux_complete needle hay fuel (p + 1) r hocc
        (by omega) (by omega)
      exact ⟨q, hq1, hq2⟩

theorem strIdxFrom_sound (needle hay : List Char) (s q : Nat)
    (h : strIdxFrom needle hay s = some q) :
    s ≤ q ∧ OccursAt needle hay q ∧
      ∀ r, s ≤ r → r < q → ¬ OccursAt needle hay r :=
  strIdxFromAux_sound needle hay (hay.length + 1 - s) s q h

theorem strIdxFrom_complete (needle hay : List Char) (s r : Nat)
    (hocc : OccursAt needle hay r) (hs : s ≤ r) :
    ∃ q, strIdxFrom needle hay s = some q ∧ q ≤ r := by
  have hr : r ≤ hay.length := by
    have := hocc.1
    omega
  exact strIdxFromAux_complete needle hay (hay.length + 1 - s) s r hocc hs (by omega)

theorem isSub_of_occursAt (needle hay : List Char) (r : Nat)
    (h : OccursAt needle hay r) : isSub needle hay = true := by
  obtain ⟨q, hq, _⟩ := strIdxFrom_complete needle hay 0 r h (Nat.zero_le r)
  rw [isSub, hq]
  rfl

theorem occursAt_of_isSub (needle hay : List Char)
    (h : isSub needle hay = true) : ∃ r, OccursAt needle hay r := by
  rw [isSub] at h
  rcases hq : strIdxFrom needle hay 0 with _ | q
  · rw [hq] at h; cases h
  · exact ⟨q, (strIdxFrom_sound needle hay 0 q hq).2.1⟩

theorem rfindAux_sound (needle hay : List Char) :
    ∀ (top q : Nat), rfindAux needle hay top = some q →
      OccursAt needle hay q
  | 0, q, h => by
    rw [rfindAux] at h
    by_cases hb : occursAtB needle hay 0 = true
    · rw [if_pos hb] at h
      obtain hq := (Option.some.injEq .. ).mp h
      subst hq
      exact (occursAtB_iff needle hay 0).mp hb
    · rw [if_neg hb] at h
      cases h
  | top + 1, q, h => by
    rw [rfindAux] at h
    by_cases hb : occursAtB needle hay (top + 1) = true
    · rw [if_pos hb] at h
      obtain hq := (Option.some.injEq .. ).mp h
      subst hq
      exact (occursAtB_iff needle hay _).mp hb
    · rw [if_neg hb] at h
      exact rfindAux_sound needle hay top q h

theorem rfindAux_found (needle hay : List Char) :
    ∀ (top r : Nat), OccursAt needle hay r → r ≤ top →
      ∃ q, rfindAux needle hay top = some q
  | 0, r, hocc, hr => by
    have hr0 : r = 0 := by omega
    subst hr0
    rw [rfindAux, if_pos ((occursAtB_iff needle hay 0).mpr hocc)]
    exact ⟨0, rfl⟩
  | top + 1, r, hocc, hr => by
    rw [rfindAux]
    by_cases hb : occursAtB needle hay (top + 1) = true
    · rw [if_pos hb]
      exact ⟨top + 1, rfl⟩
    · rw [if_neg hb]
      have hrt : r ≤ top := by
        rcases Nat.lt_or_ge r (top + 1) with h1 | h1
        · omega
        · exfalso
          have hre : r = top + 1 := by omega
          subst hre
          exact hb ((occursAtB_iff needle hay _).mpr hocc)
      exact rfindAux_found needle hay top r hocc hrt

/-- The position computed for `rfind` is an actual occurrence whenever the
needle occurs at all. -/
theorem rfindSub_occursAt (needle hay : List Char) (r : Nat)
    (hocc : OccursAt needle hay r) :
    OccursAt needle hay ((rfindSub needle hay).getD 0) := by
  have hr : r ≤ hay.length := by
    have := hocc.1
    omega
  obtain ⟨q, hq⟩ := rfindAux_found needle hay hay.length r hocc hr
  rw [rfindSub, hq]
  exact rfindAux_sound needle hay hay.length q hq

theorem takeWhile_getElem (q : Char → Bool) :
    ∀ (l : List Char) (i : Nat), i < (l.takeWhile q).length →
    ∃ a, l[i]? = some a ∧ q a = true
  | [], i, h => by simp [List.takeWhile] at h
  | a :: l, i, h => by
    by_cases hq : q a = true
    · rw [List.takeWhile_cons, if_pos hq] at h
      cases i with
      | zero => exact ⟨a, by simp, hq⟩
      | succ i =>
        simp only [List.length_cons, Nat.succ_lt_succ_iff] at h
        obtain ⟨b, hb1, hb2⟩ := takeWhile_getElem q l i h
        exact ⟨b, by simpa using hb1, hb2⟩
    · rw [List.takeWhile_cons, if_neg hq] at h
      simp at h

theorem get?_some_lt (l : List Char) (n : Nat) (a : Char)
    (h : l.get? n = some a) : n < l.length := by
  by_contra hx
  rw [List.get?_eq_none.mpr (by omega)] at h
  cases h

theorem tailScanAux_bounds (s : List Char) :
    ∀ (fuel r e : Nat), tailScanAux s fuel r = some e →
    r + 2 ≤ e ∧ e ≤ s.length
  | 0, r, e, h => by cases h
  | fuel + 1, r, e, h => by
    rw [tailScanAux] at h
    rcases hg : s.get? r with _ | c
    · rw [hg] at h
      exact Option.noConfusion h
    · rw [hg] at h
      dsimp only at h
      by_cases hc : (c == '}') = true
      · rw [if_pos hc] at h
        split at h
        · next h1 h2 =>
          obtain he := (Option.some.injEq .. ).mp h
          subst he
          have := get?_some_lt s (r + 2) _ h2
          omega
        · next h1 =>
          obtain he := (Option.some.injEq .. ).mp h
          subst he
          have := get?_some_lt s (r + 1) _ h1
          omega
        · next =>
          exact (tailScanAux_bounds s fuel (r + 1) e h).imp (by omega) id
      · rw [if_neg hc] at h
        exact (tailScanAux_bounds s fuel (r + 1) e h).imp (by omega) id

theorem getLast?_mem_list {α : Type} (l : List α) (a : α)
    (h : l.getLast? = some a) : a ∈ l := by
  have hm : a ∈ l.getLast? := by
    rw [Option.mem_def]
    exact h
  obtain ⟨hne, heq⟩ := List.mem_getLast?_eq_getLast hm
  rw [heq]
  exact List.getLast_mem hne

/-- Shape of a successful regex match: it starts with a whitespace
character, its second character is whitespace or the opening quote, it has
length at least 2 and fits inside the string. -/
theorem matchAt_shape (s : List Char) (p L : Nat) (h : matchAt s p = some L) :
    2 ≤ L ∧ p + L ≤ s.length ∧
    (∃ c, s.get? p = some c ∧ isWsChar c = true) ∧
    (∃ c, s.get? (p + 1) = some c ∧ (isWsChar c = true ∨ c = '"')) := by
  rw [matchAt] at h
  by_cases hk0 : (((leadingWs (s.drop p)).length == 0) = true)
  · rw [if_pos hk0] at h
    exact Option.noConfusion h
  · rw [if_neg hk0] at h
    have hK : 1 ≤ (leadingWs (s.drop p)).length := by
      rcases Nat.eq_zero_or_pos (leadingWs (s.drop p)).length with h0 | h0
      · exact absurd (by rw [h0]; rfl) hk0
      · omega
    have hws0 : ∃ c, s.get? p = some c ∧ isWsChar c = true := by
      obtain ⟨a, ha1, ha2⟩ := takeWhile_getElem isWsChar (s.drop p) 0
        (by simp only [leadingWs] at hK; omega)
      refine ⟨a, ?_, ha2⟩
      rw [List.get?_eq_getElem?]
      rw [List.getElem?_drop] at ha1
      simpa using ha1
    rcases hq : s.get? (p + (leadingWs (s.drop p)).length) with _ | cq
    · rw [hq] at h
      exact Option.noConfusion h
    · rw [hq] at h
      dsimp only at h
      by_cases hquote : (cq == '"') = true
      · rw [if_pos hquote] at h
        have hcq : cq = '"' := by simpa using hquote
        subst hcq
        rcases hr : strIdxFrom litQColBr s
            (p + (leadingWs (s.drop p)).length + 2) with _ | r
        · rw [hr] at h
          exact Option.noConfusion h
        · rw [hr] at h
          dsimp only at h
          rcases hts : tailScan s (r + 4) with _ | e
          · rw [hts] at h
            exact Option.noConfusion h
          · rw [hts] at h
            obtain hL := (Option.some.injEq .. ).mp h
            obtain ⟨hr1, _, _⟩ := strIdxFrom_sound litQColBr s
              (p + (leadingWs (s.drop p)).length + 2) r hr
            rw [tailScan] at hts
            obtain ⟨he1, he2⟩ := tailScanAux_bounds s (s.length + 1) (r + 4 + 1) e hts
            have hL2 : L = e - p := hL.symm
            refine ⟨by omega, by omega, hws0, ?_⟩
            by_cases hK2 : 2 ≤ (leadingWs (s.drop p)).length
            · obtain ⟨a, ha1, ha2⟩ := takeWhile_getElem isWsChar (s.drop p) 1
                (by simp only [leadingWs] at hK2 ⊢; omega)
              refine ⟨a, ?_, Or.inl ha2⟩
              rw [List.get?_eq_getElem?]
              rw [List.getElem?_drop] at ha1
              simpa using ha1
            · have hK1 : (leadingWs (s.drop p)).length = 1 := by omega
              rw [hK1] at hq
              exact ⟨'"', hq, Or.inr rfl⟩
      · rw [if_neg hquote] at h
        exact Option.noConfusion h

theorem findAllAux_mem (s : List Char) :
    ∀ (fuel p q L : Nat), (q, L) ∈ findAllAux s fuel p →
      matchAt s q = some L
  | 0, p, q, L, h => by simp [findAllAux] at h
  | fuel + 1, p, q, L, h => by
    rw [findAllAux] at h
    by_cases hp : p < s.length
    · rw [if_pos hp] at h
      rcases hm : matchAt s p with _ | L0
      · rw [hm] at h
        exact findAllAux_mem s fuel (p + 1) q L h
      · rw [hm] at h
        rcases List.mem_cons.mp h with h1 | h1
        · obtain ⟨hq, hL⟩ := Prod.mk.injEq .. ▸ h1
          subst hq; subst hL
          exact hm
        · exact findAllAux_mem s fuel (p + L0) q L h1
    · rw [if_neg hp] at h
      simp at h

theorem findAllEntries_mem (s : List Char) (q L : Nat)
    (h : (q, L) ∈ findAllEntries s) : matchAt s q = some L :=
  findAllAux_mem s (s.length + 1) 0 q L h

theorem occursAt_mono (t X Y : List Char) (q : Nat)
    (hp : X <+: Y) (h : OccursAt t X q) : OccursAt t Y q := by
  obtain ⟨rest, hr⟩ := hp
  subst hr
  refine occursAt_of_getElem t (X ++ rest) q (by
    have := h.1
    rw [List.length_append]
    omega) ?_
  intro i hi
  rw [List.getElem?_append_left (by have := h.1; omega)]
  exact occursAt_getElem t X q h i hi

theorem occursAt_append_right (t X Z : List Char) (q : Nat)
    (h : OccursAt t Z q) : OccursAt t (X ++ Z) (X.length + q) := by
  refine occursAt_of_getElem t (X ++ Z) (X.length + q) (by
    have := h.1
    rw [List.length_append]
    omega) ?_
  intro i hi
  rw [List.getElem?_append_right (by omega)]
  have : X.length + q + i - X.length = q + i := by omega
  rw [this]
  exact occursAt_getElem t Z q h i hi

/-- The needle occurs in `P ++ needle ++ S` at position `P.length`. -/
theorem occursAt_mid (t P S : List Char) :
    OccursAt t (P ++ t ++ S) P.length := by
  rw [List.append_assoc]
  have h0 : OccursAt t (t ++ S) 0 := by
    refine occursAt_of_getElem t (t ++ S) 0 (by
      rw [List.length_append]; omega) ?_
    intro i hi
    rw [Nat.zero_add, List.getElem?_append_left hi]
  have := occursAt_append_right t P (t ++ S) 0 h0
  rw [Nat.add_zero] at this
  exact this

/-- An occurrence inside a slice is an occurrence in the whole string. -/
theorem occursAt_slice (t content : List Char) (start n q : Nat)
    (ht : t ≠ []) (h : OccursAt t (sliceAt content start n) q) :
    OccursAt t content (start + q) := by
  have htl : 0 < t.length := List.length_pos.mpr ht
  have hlen : (sliceAt content start n).length ≤ content.length - start := by
    simp only [sliceAt, List.length_take, List.length_drop]
    omega
  refine occursAt_of_getElem t content (start + q) (by
    have := h.1
    omega) ?_
  intro i hi
  have hlt : q + i < (sliceAt content start n).length := by
    have := h.1
    omega
  have h2 := occursAt_getElem t (sliceAt content start n) q h i hi
  rw [sliceAt, List.getElem?_take_of_lt (by
      simp only [sliceAt, List.length_take, List.length_drop] at hlt
      omega), List.getElem?_drop] at h2
  have : start + q + i = start + (q + i) := by omega
  rw [this]
  exact h2

/-- Splitting an occurrence across a separator character that does not
occur in the needle. -/
theorem occursAt_sep (t X Z : List Char) (c : Char) (q : Nat)
    (hc : c ∉ t) (h : OccursAt t (X ++ c :: Z) q) :
    (q + t.length ≤ X.length ∧ OccursAt t X q) ∨
    (X.length + 1 ≤ q ∧ OccursAt t Z (q - (X.length + 1))) := by
  rcases Nat.lt_or_ge (q + t.length) (X.length + 1) with hlt | hge
  · left
    have hb : q + t.length ≤ X.length := by omega
    refine ⟨hb, occursAt_of_getElem t X q (by omega) ?_⟩
    intro i hi
    have := occursAt_getElem t (X ++ c :: Z) q h i hi
    rw [List.getElem?_append_left (by omega)] at this
    exact this
  · by_cases hq : q ≤ X.length
    · exfalso
      have hi : X.length - q < t.length := by omega
      have := occursAt_getElem t (X ++ c :: Z) q h (X.length - q) hi
      have hx : q + (X.length - q) = X.length := by omega
      rw [hx, List.getElem?_append_right (Nat.le_refl _)] at this
      rw [Nat.sub_self] at this
      simp only [List.getElem?_cons_zero] at this
      exact hc (getElem?_mem_char t (X.length - q) c this.symm)
    · right
      have hq2 : X.length + 1 ≤ q := by omega
      refine ⟨hq2, occursAt_of_getElem t Z (q - (X.length + 1)) (by
        have := h.1
        rw [List.length_append, List.length_cons] at this
        omega) ?_⟩
      intro i hi
      have := occursAt_getElem t (X ++ c :: Z) q h i hi
      rw [List.getElem?_append_right (by omega)] at this
      have hx : q + i - X.length = (q - (X.length + 1) + i) + 1 := by omega
      rw [hx, List.getElem?_cons_succ] at this
      exact this

/-- No occurrence of `return flavors` inside pure whitespace. -/
theorem no_ret_in_ws (Wl : List Char) (hW : ∀ c ∈ Wl, isWsChar c = true)
    (q : Nat) : ¬ OccursAt retStr Wl q := by
  intro h
  have h0 : Wl.get? q = Wl[q]? := List.get?_eq_getElem? Wl q
  have hr : Wl[q]? = some 'r' := by
    have := occursAt_getElem retStr Wl q h 0 (by decide)
    rw [Nat.add_zero] at this
    rw [this]
    rfl
  have : ('r' : Char) ∈ Wl := getElem?_mem_char Wl q 'r' hr
  have := hW 'r' this
  simp [isWsChar] at this

/-- No occurrence of a 14-character needle inside a short segment. -/
theorem no_occursAt_short (t S : List Char) (q : Nat)
    (hlen : S.length < t.length) : ¬ OccursAt t S q := by
  intro h
  have := h.1
  omega

theorem retStr_length : retStr.length = 14 := rfl

/-- Any occurrence of `return flavors` in the updated region followed by
the rewritten `return flavors` marker sits at or after the marker: every
piece of the updated region is either free of the needle, pure whitespace,
too short, or separated by characters that the needle does not contain. -/
theorem no_ret_before (AB ind fl d C W t0 : List Char) (o : Nat)
    (hAB : ∀ q, ¬ OccursAt retStr AB q)
    (hC : ∀ q, ¬ OccursAt retStr C q)
    (hind : ∀ c ∈ ind, isWsChar c = true)
    (hW : ∀ c ∈ W, isWsChar c = true)
    (hfl : ∀ q, ¬ OccursAt retStr fl q)
    (hd : ∀ q, ¬ OccursAt retStr d q)
    (h : OccursAt retStr
      (AB ++ ',' :: (('\n' :: ind) ++ '"' :: (fl ++ '"' ::
        ([':', ' ', '\x7b', '"', 'l', 'a', 'b', 'e', 'l', '"', ':', ' '] ++ '"' ::
          (d ++ '"' :: (['\x7d', ','] ++ '\n' ::
            (C ++ '\n' :: ((W ++ retStr) ++ '\n' :: t0)))))))) o) :
    AB.length + ind.length + fl.length + d.length + C.length + W.length + 22 ≤ o := by
  rcases occursAt_sep retStr AB _ ',' o (by decide) h with ⟨hb1, hocc⟩ | ⟨hb1, h1⟩
  · exact absurd hocc (hAB o)
  rcases occursAt_sep retStr ('\n' :: ind) _ '"' _ (by decide) h1 with
    ⟨hb2, hocc⟩ | ⟨hb2, h2⟩
  · refine absurd hocc (no_ret_in_ws ('\n' :: ind) ?_ _)
    intro c hcm
    rcases List.mem_cons.mp hcm with hcm | hcm
    · subst hcm; decide
    · exact hind c hcm
  rcases occursAt_sep retStr fl _ '"' _ (by decide) h2 with ⟨hb3, hocc⟩ | ⟨hb3, h3⟩
  · exact absurd hocc (hfl _)
  rcases occursAt_sep retStr
      [':', ' ', '\x7b', '"', 'l', 'a', 'b', 'e', 'l', '"', ':', ' '] _ '"' _
      (by decide) h3 with ⟨hb4, hocc⟩ | ⟨hb4, h4⟩
  · exact absurd hocc (no_occursAt_short retStr _ _ (by decide))
  rcases occursAt_sep retStr d _ '"' _ (by decide) h4 with ⟨hb5, hocc⟩ | ⟨hb5, h5⟩
  · exact absurd hocc (hd _)
  rcases occursAt_sep retStr ['\x7d', ','] _ '\n' _ (by decide) h5 with
    ⟨hb6, hocc⟩ | ⟨hb6, h6⟩
  · exact absurd hocc (no_occursAt_short retStr _ _ (by decide))
  rcases occursAt_sep retStr C _ '\n' _ (by decide) h6 with ⟨hb7, hocc⟩ | ⟨hb7, h7⟩
  · exact absurd hocc (hC _)
  rcases occursAt_sep retStr (W ++ retStr) _ '\n' _ (by decide) h7 with
    ⟨hb8, hocc⟩ | ⟨hb8, _⟩
  · rw [retStr_length] at hb8
    rw [List.length_append, retStr_length] at hb8
    rcases Nat.lt_or_ge (o - (AB.length + 1) - (('\n' :: ind).length + 1) -
        (fl.length + 1) -
        ([':', ' ', '\x7b', '"', 'l', 'a', 'b', 'e', 'l', '"', ':', ' '].length + 1) -
        (d.length + 1) - ((['\x7d', ','] : List Char).length + 1) -
        (C.length + 1)) W.length with hlt | hge2
    · exfalso
      have hr0 : (W ++ retStr)[o - (AB.length + 1) - (('\n' :: ind).length + 1) -
          (fl.length + 1) -
          ([':', ' ', '\x7b', '"', 'l', 'a', 'b', 'e', 'l', '"', ':', ' '].length + 1) -
          (d.length + 1) - ((['\x7d', ','] : List Char).length + 1) -
          (C.length + 1)]? = some 'r' := by
        have := occursAt_getElem retStr (W ++ retStr) _ hocc 0 (by decide)
        rw [Nat.add_zero] at this
        rw [this]
        rfl
      rw [List.getElem?_append_left hlt] at hr0
      have hmem := getElem?_mem_char W _ 'r' hr0
      have := hW 'r' hmem
      simp [isWsChar] at this
    · simp only [List.length_cons, List.length_nil] at hb1 hb2 hb3 hb4 hb5 hb6 hb7 hb8 hge2 ⊢
      omega
  · simp only [List.length_cons, List.length_nil, List.length_append] at hb1 hb2 hb3 hb4 hb5 hb6 hb7 hb8
    rw [retStr_length] at hb8
    omega

/-! ## Further string lemmas for the factory idempotence proof -/

theorem markerStr_length : markerStr.length = 30 := rfl

/-- The `return flavors` needle mismatches the marker at every offset
below 30: the dictionary region is at least as long as the marker. -/
theorem marker_ret_gap : ∀ d, d < 30 →
    ∃ i, i < 14 ∧ d + i < 30 ∧ markerStr.getD (d + i) 'x' ≠ retStr.getD i 'x' := by
  decide

/-- Among the first 29 positions the marker has no whitespace character
followed by whitespace or a quote. -/
theorem marker_ws_shape : ∀ r, r < 29 →
    ¬ (isWsChar (markerStr.getD r 'x') = true ∧
       (isWsChar (markerStr.getD (r + 1) 'x') = true ∨
        markerStr.getD (r + 1) 'x' = '"')) := by
  decide

theorem marker_last_not_ws : isWsChar (markerStr.getD 29 'x') = false := by
  decide

/-- Right-stripping produces a prefix of the original string. -/
theorem revDropWhile_pref (q : Char → Bool) (l : List Char) :
    (l.reverse.dropWhile q).reverse <+: l := by
  obtain ⟨t, ht⟩ := (List.dropWhile_suffix q : l.reverse.dropWhile q <:+ l.reverse)
  exact ⟨t.reverse, by rw [← List.reverse_append, ht, List.reverse_reverse]⟩

/-- Appending on the left preserves the prefix relation. -/
theorem pref_append_left (A B D : List Char) (h : B <+: D) :
    A ++ B <+: A ++ D := by
  obtain ⟨t, ht⟩ := h
  exact ⟨t, by rw [List.append_assoc, ht]⟩

/-- An occurrence inside a dropped tail is an occurrence in the whole. -/
theorem occursAt_drop_lift (t Y : List Char) (d q : Nat) (ht : t ≠ [])
    (h : OccursAt t (Y.drop d) q) : OccursAt t Y (d + q) := by
  have htl : 0 < t.length := List.length_pos.mpr ht
  have hb := h.1
  rw [List.length_drop] at hb
  refine occursAt_of_getElem t Y (d + q) (by omega) ?_
  intro i hi
  have h2 := occursAt_getElem t (Y.drop d) q h i hi
  rw [List.getElem?_drop] at h2
  have hx : d + q + i = d + (q + i) := by omega
  rw [hx]
  exact h2

/-- An occurrence at or after `d` restricts to the dropped tail. -/
theorem occursAt_undrop (t Y : List Char) (d q : Nat) (hd : d ≤ q)
    (h : OccursAt t Y q) : OccursAt t (Y.drop d) (q - d) := by
  have hb := h.1
  refine occursAt_of_getElem t (Y.drop d) (q - d)
    (by rw [List.length_drop]; omega) ?_
  intro i hi
  rw [List.getElem?_drop]
  have hx : d + (q - d + i) = q + i := by omega
  rw [hx]
  exact occursAt_getElem t Y q h i hi

/-- The text up to an occurrence, extended by the needle, is the text up to
the end of the occurrence. -/
theorem occursAt_take_append (t Y : List Char) (p : Nat)
    (h : OccursAt t Y p) : Y.take p ++ t = Y.take (p + t.length) := by
  rw [List.take_add]
  congr 1
  exact h.2.symm

theorem newEntryStr_length (ind fl dd : List Char) :
    (newEntryStr ind fl dd).length =
      ind.length + fl.length + dd.length + 19 := by
  simp [newEntryStr, entryMid, entryClose]
  omega

/-- Decomposition of the updated region followed by the rewritten marker
into needle-free segments joined by separator characters. -/
theorem updated_decomp (A B ind fl dd C W t0 : List Char) :
    (A ++ B ++ [',', '\n'] ++ newEntryStr ind fl dd ++ C ++ ['\n'] ++ W) ++
      (retStr ++ '\n' :: t0) =
    (A ++ B) ++ ',' :: (('\n' :: ind) ++ '"' :: (fl ++ '"' ::
      ([':', ' ', '\x7b', '"', 'l', 'a', 'b', 'e', 'l', '"', ':', ' '] ++ '"' ::
        (dd ++ '"' :: (['\x7d', ','] ++ '\n' ::
          (C ++ '\n' :: ((W ++ retStr) ++ '\n' :: t0))))))) := by
  simp [newEntryStr, entryMid, entryClose, List.append_assoc]

/-- The generated entry places the existence-check substring right after
the indentation of the updated region. -/
theorem updated_reg_decomp (A B ind fl dd C W : List Char) :
    A ++ B ++ [',', '\n'] ++ newEntryStr ind fl dd ++ C ++ ['\n'] ++ W =
    (A ++ B ++ [',', '\n'] ++ ind) ++ regSub fl ++
      ([' ', '\x7b', '"', 'l', 'a', 'b', 'e', 'l', '"', ':', ' ', '"'] ++
        dd ++ entryClose ++ C ++ ['\n'] ++ W) := by
  simp [newEntryStr, entryMid, regSub, entryClose, List.append_assoc]

/-- The result of a changed run contains the indentation-free entry text. -/
theorem entry_sub_decomp (X A B ind fl dd C W t0 : List Char) :
    X ++ (A ++ B ++ [',', '\n'] ++ newEntryStr ind fl dd ++ C ++ ['\n'] ++ W) ++
      retStr ++ '\n' :: t0 =
    (X ++ (A ++ B ++ [',', '\n'] ++ ind)) ++ newEntryStr [] fl dd ++
      (C ++ ['\n'] ++ W ++ retStr ++ '\n' :: t0) := by
  simp [newEntryStr, List.append_assoc]

/-- Evaluation of `update_flavor_factory` when both markers are found and
the existence check fires: the content is returned unchanged. -/
theorem updateFF_eval_skip (content nf nd : List Char) (start e : Nat)
    (h1 : strIdxFrom markerStr content 0 = some start)
    (h2 : strIdxFrom retStr content start = some e)
    (h3 : isSub (regSub nf) (sliceAt content start (e - start)) = true) :
    updateFlavorFactory content nf nd = some content := by
  simp only [updateFlavorFactory]
  rw [h1]
  dsimp only
  rw [h2]
  dsimp only
  rw [if_pos h3]

/-- Inversion of a successful `update_flavor_factory` run: either the
existence check fired and the content is unchanged, or the run spliced the
generated entry into the flavors-dictionary region. -/
theorem updateFF_changed (content nf nd c1 : List Char)
    (h : updateFlavorFactory content nf nd = some c1) :
    ∃ start e0, strIdxFrom markerStr content 0 = some start ∧
      strIdxFrom retStr content start = some e0 ∧
      ((isSub (regSub nf) (sliceAt content start (e0 - start)) = true ∧
        c1 = content) ∨
       (isSub (regSub nf) (sliceAt content start (e0 - start)) = false ∧
        ∃ p L lastEntry pos indent,
          (findAllEntries (sliceAt content start (e0 - start))).getLast? =
            some (p, L) ∧
          lastEntry = sliceAt (sliceAt content start (e0 - start)) p L ∧
          pos = (rfindSub lastEntry (sliceAt content start (e0 - start))).getD 0 ∧
          indent = leadingWs lastEntry ∧
          c1 = content.take start ++
            ((sliceAt content start (e0 - start)).take pos ++
             rstripIn [',', '\n'] lastEntry ++ [',', '\n'] ++
             newEntryStr indent nf nd ++
             rstripWs ((sliceAt content start (e0 - start)).drop
               (pos + lastEntry.length)) ++
             ['\n'] ++ indent.take (indent.length - 4)) ++
            retStr ++ '\n' :: content.drop (e0 + retStr.length))) := by
  simp only [updateFlavorFactory] at h
  rcases hm : strIdxFrom markerStr content 0 with _ | start
  · rw [hm] at h
    exact Option.noConfusion h
  rw [hm] at h
  dsimp only at h
  rcases hr : strIdxFrom retStr content start with _ | e0
  · rw [hr] at h
    exact Option.noConfusion h
  rw [hr] at h
  dsimp only at h
  refine ⟨start, e0, rfl, hr, ?_⟩
  by_cases hchk : isSub (regSub nf) (sliceAt content start (e0 - start)) = true
  · rw [if_pos hchk] at h
    exact Or.inl ⟨hchk, ((Option.some.injEq .. ).mp h).symm⟩
  · rw [if_neg hchk] at h
    rw [Bool.not_eq_true] at hchk
    rcases hlast : (findAllEntries (sliceAt content start (e0 - start))).getLast?
      with _ | ⟨p, L⟩
    · rw [hlast] at h
      exact Option.noConfusion h
    · rw [hlast] at h
      dsimp only at h
      exact Or.inr ⟨hchk, p, L, _, _, _, rfl, rfl, rfl, rfl,
        ((Option.some.injEq .. ).mp h).symm⟩

/-! ## Claim theorems -/

/-- Claim C1: for every descriptor document whose Linter Entries are
well-formed (records whose `descriptor_flavors` carry no duplicates), after
one run of the reconciliation step, the set of Linter Entries carrying
`flavorName` equals exactly `desiredComponents` intersected with the set of
`linter_name` values present in that document. -/
theorem claim_C1 (components : List String) (flavor : String)
    (data data2 : YVal) (mod : Bool)
    (hwf : wfDoc data = true)
    (hrun : updateDoc components flavor data = .ok (data2, mod)) :
    ∀ n : String, n ∈ carrierNames flavor (docLinters data2) ↔
      n ∈ components ∧ n ∈ entryNames (docLinters data2) :=
  updateDoc_carrier_iff components flavor data data2 mod hwf hrun

theorem claim_C1_witness :
    (("pylint" : String) ∈ carrierNames ("bio") (docLinters w1res) ↔
      ("pylint" : String) ∈ [("pylint")] ∧
      ("pylint" : String) ∈ entryNames (docLinters w1res)) ∧
    (("other" : String) ∈ carrierNames ("bio") (docLinters w1res) ↔
      ("other" : String) ∈ [("pylint")] ∧
      ("other" : String) ∈ entryNames (docLinters w1res)) :=
  ⟨claim_C1 [("pylint")] ("bio") w1doc w1res w1mod (by decide) (by rfl) ("pylint"),
   claim_C1 [("pylint")] ("bio") w1doc w1res w1mod (by decide) (by rfl) ("other")⟩

/-- Claim C2: the reconciliation sweep is idempotent — re-running it on the
store of documents it produced marks no document dirty (every `modified`
flag of the second run is false, so nothing is written). -/
theorem claim_C2 (components : List String) (flavor : String)
    (store : List (Option YVal)) (out : List (YVal × Bool))
    (hwf : wfStore store = true)
    (h1 : updateYamlDescriptors components flavor store = .ok out) :
    updateYamlDescriptors components flavor (out.map (fun p => some p.1)) =
      .ok (out.map (fun p => (p.1, false))) :=
  updateYaml_idem components flavor store out hwf h1

theorem claim_C2_witness :
    updateYamlDescriptors [("pylint")] ("bio") (w2out.map (fun p => some p.1)) =
      .ok (w2out.map (fun p => (p.1, false))) :=
  claim_C2 [("pylint")] ("bio") w2store w2out (by decide) (by rfl)

/-- Counterexample to claim C3 as stated: after reconciling an installable
document whose only entry is a desired component, the entry carries the
flavor but the root-level `descriptor_flavors` does not contain it — the
code performs no root-flag reconciliation at all. -/
theorem claim_C3_cex :
    updateDoc [("pylint")] ("bio") c3doc = .ok (c3out, true) ∧
    hasInstallMarker c3doc = true ∧
    (docLinters c3out).any (entryCarries ("bio")) = true ∧
    rootHasFlavor ("bio") c3out = false :=
  ⟨rfl, rfl, by decide, by decide⟩

/-- Claim C3 (amended): `update_yaml_descriptors` performs no root-level
reconciliation — it leaves the document's root `descriptor_flavors` and
`install` marker unchanged, whatever the entries contain. -/
theorem claim_C3 (components : List String) (flavor : String)
    (data data2 : YVal) (md : Bool)
    (h : updateDoc components flavor data = .ok (data2, md)) :
    rootFlavors data2 = rootFlavors data ∧
    hasInstallMarker data2 = hasInstallMarker data :=
  updateDoc_root components flavor data data2 md h

theorem claim_C3_witness :
    rootFlavors c3out = rootFlavors c3doc ∧
    hasInstallMarker c3out = hasInstallMarker c3doc :=
  claim_C3 [("pylint")] ("bio") c3doc c3out true (by rfl)

/-- Counterexample to claim C4 as stated: a store whose first document
fails to load aborts the whole sweep with a raised exception, although a
processable document follows — per-document load problems are fatal, not
locally recovered. -/
theorem claim_C4_cex :
    updateYamlDescriptors [("pylint")] ("bio") [none, some c3doc] = .error () :=
  rfl

/-- Claim C4 (amended): a document that is not record-shaped or lacks the
`linters` key is skipped (left untouched, not written) and the sweep
continues with the remaining documents; but a document whose load raises is
fatal and aborts the whole sweep. -/
theorem claim_C4 (components : List String) (flavor : String)
    (data : YVal) (rest : List (Option YVal))
    (hshape : docIsRecordWithLinters data = false) :
    updateFile components flavor (some data) = .ok (data, false) ∧
    updateYamlDescriptors components flavor (some data :: rest) =
      (updateYamlDescriptors components flavor rest).map
        (fun r => (data, false) :: r) ∧
    updateYamlDescriptors components flavor (none :: rest) = .error () := by
  have hfile : updateFile components flavor (some data) = .ok (data, false) := by
    rw [updateFile, updateDoc_skip components flavor data hshape]
    rfl
  refine ⟨hfile, ?_, updateYaml_none_aborts components flavor rest⟩
  rw [updateYamlDescriptors, hfile]
  rcases hR : updateYamlDescriptors components flavor rest with e0 | r0
  · rfl
  · rfl

theorem claim_C4_witness :
    updateFile [("pylint")] ("bio") (some (.str ("not a record"))) =
      .ok (.str ("not a record"), false) ∧
    updateYamlDescriptors [("pylint")] ("bio") [some (.str ("not a record"))] =
      (updateYamlDescriptors [("pylint")] ("bio") []).map
        (fun r => (YVal.str ("not a record"), false) :: r) ∧
    updateYamlDescriptors [("pylint")] ("bio")
      [none] = .error () :=
  claim_C4 [("pylint")] ("bio") (.str ("not a record")) [] (by decide)

/-- Claim C5: applying the factory patch twice with the same flavor name
yields source text identical after the first and after the second
application — the second run finds the existence-check substring
`"flavor":` that the first run inserted into the flavors-dictionary region
and returns its input unchanged.  The flavor name and its description are
assumed not to contain the sentinel `return flavors` that delimits that
region. -/
theorem claim_C5 (content flavor desc c1 : List Char)
    (hf : isSub retStr flavor = false)
    (hd : isSub retStr desc = false)
    (h : updateFlavorFactory content flavor desc = some c1) :
    updateFlavorFactory c1 flavor desc = some c1 := by
  obtain ⟨start, e0, hm, hret, hbr⟩ := updateFF_changed content flavor desc c1 h
  obtain ⟨hs0, hmocc, hmmin⟩ := strIdxFrom_sound markerStr content 0 start hm
  obtain ⟨hse, hrocc, hrmin⟩ := strIdxFrom_sound retStr content start e0 hret
  rcases hbr with ⟨hchk, hc1⟩ |
    ⟨hchk, p, L, lastEntry, pos, indent, hlast, hle, hpos, hind, hc1⟩
  · rw [hc1]
    exact updateFF_eval_skip content flavor desc start e0 hm hret hchk
  · set fds := sliceAt content start (e0 - start) with hfds
    have hm30 : start + 30 ≤ content.length := by
      have := hmocc.1
      rw [markerStr_length] at this
      exact this
    have hclen : e0 + 14 ≤ content.length := by
      have := hrocc.1
      rw [retStr_length] at this
      exact this
    have he30 : start + 30 ≤ e0 := by
      by_contra hcon
      have hd30 : e0 - start < 30 := by omega
      obtain ⟨i, hi14, hi30, hne⟩ := marker_ret_gap (e0 - start) hd30
      have h1 : content[start + (e0 - start + i)]? = markerStr[e0 - start + i]? :=
        occursAt_getElem markerStr content start hmocc (e0 - start + i)
          (by rw [markerStr_length]; omega)
      have h2 : content[e0 + i]? = retStr[i]? :=
        occursAt_getElem retStr content e0 hrocc i (by rw [retStr_length]; omega)
      have hx : start + (e0 - start + i) = e0 + i := by omega
      rw [hx, h2] at h1
      have h3 := congrArg (fun o => o.getD 'x') h1
      simp only [← List.getD_eq_getElem?_getD] at h3
      exact hne h3.symm
    have hfdslen : fds.length = e0 - start := by
      rw [hfds]
      exact sliceAt_length content start (e0 - start) (by omega)
    have hfdsget : ∀ j, j < 30 → fds[j]? = markerStr[j]? := by
      intro j hj
      have hjlt : j < e0 - start := by omega
      rw [hfds, sliceAt, List.getElem?_take_of_lt hjlt, List.getElem?_drop]
      exact occursAt_getElem markerStr content start hmocc j
        (by rw [markerStr_length]; omega)
    have hmatch : matchAt fds p = some L :=
      findAllEntries_mem fds p L (getLast?_mem_list _ (p, L) hlast)
    obtain ⟨hL2, hpL, ⟨cw, hcw1, hcw2⟩, ⟨c2, hc21, hc22⟩⟩ :=
      matchAt_shape fds p L hmatch
    have hlelen : lastEntry.length = L := by
      rw [hle]
      exact sliceAt_length fds p L (by omega)
    have hleocc : OccursAt lastEntry fds p := by
      refine ⟨by omega, ?_⟩
      rw [hlelen]
      exact hle.symm
    have hposocc : OccursAt lastEntry fds pos := by
      rw [hpos]
      exact rfindSub_occursAt lastEntry fds p hleocc
    have hposL : pos + L ≤ fds.length := by
      have := hposocc.1
      omega
    have hle0 : lastEntry[0]? = some cw := by
      have h1 := occursAt_getElem lastEntry fds p hleocc 0 (by omega)
      rw [Nat.add_zero] at h1
      rw [← h1, ← List.get?_eq_getElem?]
      exact hcw1
    have hle1 : lastEntry[1]? = some c2 := by
      have h1 := occursAt_getElem lastEntry fds p hleocc 1 (by omega)
      rw [← h1, ← List.get?_eq_getElem?]
      exact hc21
    have hpos30 : 30 ≤ pos := by
      by_contra hcon
      have hplt : pos < 30 := by omega
      have hfm0 : markerStr[pos]? = some cw := by
        have h1 := occursAt_getElem lastEntry fds pos hposocc 0 (by omega)
        rw [Nat.add_zero] at h1
        rw [← hfdsget pos hplt, h1]
        exact hle0
      have hcwD : markerStr.getD pos 'x' = cw := by
        rw [List.getD_eq_getElem?_getD, hfm0]
        rfl
      rcases Nat.lt_or_ge pos 29 with h29 | h29
      · have hfm1 : markerStr[pos + 1]? = some c2 := by
          have h1 := occursAt_getElem lastEntry fds pos hposocc 1 (by omega)
          rw [← hfdsget (pos + 1) (by omega), h1]
          exact hle1
        have hc2D : markerStr.getD (pos + 1) 'x' = c2 := by
          rw [List.getD_eq_getElem?_getD, hfm1]
          rfl
        refine marker_ws_shape pos h29 ⟨?_, ?_⟩
        · rw [hcwD]
          exact hcw2
        · rw [hc2D]
          exact hc22
      · have hp29 : pos = 29 := by omega
        rw [hp29] at hcwD
        have h1 := marker_last_not_ws
        rw [hcwD, hcw2] at h1
        exact Bool.noConfusion h1
    set upd := fds.take pos ++ rstripIn [',', '\n'] lastEntry ++ [',', '\n'] ++
      newEntryStr indent flavor desc ++
      rstripWs (fds.drop (pos + lastEntry.length)) ++ ['\n'] ++
      indent.take (indent.length - 4) with hupd
    have hstartlen : (content.take start).length = start := by
      rw [List.length_take]
      omega
    have hApos : (fds.take pos).length = pos := by
      rw [List.length_take]
      omega
    have hc1R : c1 = content.take start ++
        (upd ++ (retStr ++ '\n' :: content.drop (e0 + retStr.length))) := by
      rw [hc1]
      simp [List.append_assoc]
    have hdropc1 : c1.drop start =
        upd ++ (retStr ++ '\n' :: content.drop (e0 + retStr.length)) := by
      rw [hc1R]
      exact List.drop_left' hstartlen
    have hG3 : sliceAt c1 start (start + upd.length - start) = upd := by
      have hx : start + upd.length - start = upd.length := by omega
      rw [hx, sliceAt, hdropc1, List.take_left]
    have hBpref : rstripIn [',', '\n'] lastEntry <+: lastEntry :=
      revDropWhile_pref _ lastEntry
    have hABpref : fds.take pos ++ rstripIn [',', '\n'] lastEntry <+: fds := by
      have h1 : fds.take pos ++ rstripIn [',', '\n'] lastEntry <+:
          fds.take pos ++ lastEntry :=
        pref_append_left _ _ _ hBpref
      have h2 : fds.take pos ++ lastEntry = fds.take (pos + lastEntry.length) :=
        occursAt_take_append lastEntry fds pos hposocc
      rw [h2] at h1
      exact h1.trans (List.take_prefix _ _)
    have hNF : ∀ q, ¬ OccursAt retStr fds q := by
      intro q hq
      have hb := hq.1
      rw [retStr_length] at hb
      have hocc2 : OccursAt retStr content (start + q) :=
        occursAt_slice retStr content start (e0 - start) q (by decide)
          (hfds ▸ hq)
      exact hrmin (start + q) (by omega) (by omega) hocc2
    have hAB : ∀ q,
        ¬ OccursAt retStr (fds.take pos ++ rstripIn [',', '\n'] lastEntry) q := by
      intro q hq
      exact hNF q (occursAt_mono retStr _ fds q hABpref hq)
    have hCC : ∀ q,
        ¬ OccursAt retStr (rstripWs (fds.drop (pos + lastEntry.length))) q := by
      intro q hq
      have hp2 : rstripWs (fds.drop (pos + lastEntry.length)) <+:
          fds.drop (pos + lastEntry.length) :=
        revDropWhile_pref _ _
      have h1 := occursAt_mono retStr _ _ q hp2 hq
      have h2 := occursAt_drop_lift retStr fds (pos + lastEntry.length) q
        (by decide) h1
      exact hNF _ h2
    have hindws : ∀ c ∈ indent, isWsChar c = true := by
      intro c hcmem
      rw [hind] at hcmem
      have hcm2 : c ∈ lastEntry.takeWhile isWsChar := hcmem
      exact List.mem_takeWhile_imp hcm2
    have hWws : ∀ c ∈ indent.take (indent.length - 4), isWsChar c = true := by
      intro c hcmem
      exact hindws c (List.take_subset _ _ hcmem)
    have hflocc : ∀ q, ¬ OccursAt retStr flavor q := by
      intro q hq
      rw [isSub_of_occursAt retStr flavor q hq] at hf
      exact Bool.noConfusion hf
    have hdocc : ∀ q, ¬ OccursAt retStr desc q := by
      intro q hq
      rw [isSub_of_occursAt retStr desc q hq] at hd
      exact Bool.noConfusion hd
    have hAocc : OccursAt markerStr (fds.take pos) 0 := by
      refine occursAt_of_getElem markerStr (fds.take pos) 0
        (by rw [markerStr_length, hApos]; omega) ?_
      intro i hi
      rw [markerStr_length] at hi
      rw [Nat.zero_add, List.getElem?_take_of_lt (by omega : i < pos)]
      exact hfdsget i hi
    have hupd_pref : fds.take pos <+: upd :=
      ⟨rstripIn [',', '\n'] lastEntry ++ [',', '\n'] ++
        newEntryStr indent flavor desc ++
        rstripWs (fds.drop (pos + lastEntry.length)) ++ ['\n'] ++
        indent.take (indent.length - 4),
       by rw [hupd]; simp [List.append_assoc]⟩
    have hupdlen : pos ≤ upd.length := by
      obtain ⟨t, ht⟩ := hupd_pref
      rw [← ht, List.length_append, hApos]
      omega
    have hupd_eq : ∀ j, j < pos → upd[j]? = (fds.take pos)[j]? := by
      intro j hj
      obtain ⟨t, ht⟩ := hupd_pref
      rw [← ht, List.getElem?_append_left
        (by rw [hApos]; omega : j < (fds.take pos).length)]
    have hc1occ : OccursAt markerStr c1 start := by
      have h1 : OccursAt markerStr
          (upd ++ (retStr ++ '\n' :: content.drop (e0 + retStr.length))) 0 :=
        occursAt_mono markerStr (fds.take pos) _ 0
          (hupd_pref.trans (List.prefix_append _ _)) hAocc
      have h2 := occursAt_append_right markerStr (content.take start) _ 0 h1
      rw [Nat.add_zero, hstartlen] at h2
      rw [hc1R]
      exact h2
    have hposle : pos ≤ e0 - start := by omega
    have hAeq : fds.take pos = (content.drop start).take pos := by
      rw [hfds, sliceAt, List.take_take]
      congr 1
      omega
    have htakeAeq : content.take start ++ fds.take pos =
        content.take (start + pos) := by
      rw [hAeq, List.take_add]
    have hc1pre : ∀ i, i < start + pos → c1[i]? = content[i]? := by
      intro i hi
      rcases Nat.lt_or_ge i start with hilt | hige
      · rw [hc1R, List.getElem?_append_left
          (by rw [hstartlen]; omega : i < (content.take start).length),
          List.getElem?_take_of_lt hilt]
      · rw [hc1R, List.getElem?_append_right
          (by rw [hstartlen]; omega : (content.take start).length ≤ i), hstartlen]
        rw [List.getElem?_append_left (by omega : i - start < upd.length)]
        rw [hupd_eq (i - start) (by omega)]
        rw [hAeq, List.getElem?_take_of_lt (by omega : i - start < pos),
          List.getElem?_drop]
        congr 1
        omega
    have hG1 : strIdxFrom markerStr c1 0 = some start := by
      obtain ⟨q, hq, hqle⟩ :=
        strIdxFrom_complete markerStr c1 0 start hc1occ (Nat.zero_le start)
      obtain ⟨hq0, hqocc, hqmin⟩ := strIdxFrom_sound markerStr c1 0 q hq
      rcases Nat.lt_or_ge q start with hqlt | hqge
      · exfalso
        have hocc2 : OccursAt markerStr content q := by
          refine occursAt_of_getElem markerStr content q
            (by rw [markerStr_length]; omega) ?_
          intro i hi
          rw [markerStr_length] at hi
          rw [← hc1pre (q + i) (by omega)]
          exact occursAt_getElem markerStr c1 q hqocc i
            (by rw [markerStr_length]; omega)
        exact hmmin q (Nat.zero_le q) hqlt hocc2
      · have hqe : q = start := by omega
        rw [hqe] at hq
        exact hq
    have hulen : upd.length =
        (fds.take pos ++ rstripIn [',', '\n'] lastEntry).length +
        indent.length + flavor.length + desc.length +
        (rstripWs (fds.drop (pos + lastEntry.length))).length +
        (indent.take (indent.length - 4)).length + 22 := by
      rw [hupd]
      simp [List.length_append, newEntryStr_length]
      omega
    have hretmid : OccursAt retStr c1 (start + upd.length) := by
      have h1 := occursAt_mid retStr (content.take start ++ upd)
        ('\n' :: content.drop (e0 + retStr.length))
      rw [List.length_append, hstartlen, ← hc1] at h1
      exact h1
    have hG2 : strIdxFrom retStr c1 start = some (start + upd.length) := by
      obtain ⟨q, hq, hqle⟩ := strIdxFrom_complete retStr c1 start
        (start + upd.length) hretmid (by omega)
      obtain ⟨hsq, hqocc, hqmin⟩ := strIdxFrom_sound retStr c1 start q hq
      rcases Nat.lt_or_ge q (start + upd.length) with hqlt | hqge
      · exfalso
        have hdo := occursAt_undrop retStr c1 start q hsq hqocc
        rw [hdropc1, hupd, updated_decomp] at hdo
        have hbig := no_ret_before
          (fds.take pos ++ rstripIn [',', '\n'] lastEntry) indent flavor desc
          (rstripWs (fds.drop (pos + lastEntry.length)))
          (indent.take (indent.length - 4))
          (content.drop (e0 + retStr.length)) (q - start)
          hAB hCC hindws hWws hflocc hdocc hdo
        omega
      · have hqe : q = start + upd.length := by omega
        rw [hqe] at hq
        exact hq
    have hG4 : isSub (regSub flavor)
        (sliceAt c1 start (start + upd.length - start)) = true := by
      rw [hG3]
      have h1 := occursAt_mid (regSub flavor)
        (fds.take pos ++ rstripIn [',', '\n'] lastEntry ++ [',', '\n'] ++ indent)
        ([' ', '\x7b', '"', 'l', 'a', 'b', 'e', 'l', '"', ':', ' ', '"'] ++
          desc ++ entryClose ++ rstripWs (fds.drop (pos + lastEntry.length)) ++
          ['\n'] ++ indent.take (indent.length - 4))
      rw [← updated_reg_decomp, ← hupd] at h1
      exact isSub_of_occursAt _ _ _ h1
    exact updateFF_eval_skip c1 flavor desc start (start + upd.length) hG1 hG2 hG4

/-- Claim C5 witness: a concrete factory source run through the patch
twice; the second run returns the first run's output unchanged. -/
theorem claim_C5_witness :
    (isSub retStr c5flavor = false ∧ isSub retStr c5desc = false ∧
     updateFlavorFactory c5content c5flavor c5desc = some c5res) ∧
    updateFlavorFactory c5res c5flavor c5desc = some c5res :=
  ⟨⟨by decide, by decide, rfl⟩,
   claim_C5 c5content c5flavor c5desc c5res (by decide) (by decide) rfl⟩

/-- Counterexample to claim C6 as stated: on a factory source that does
not yet register the flavor, the patch succeeds but the original source is
not a prefix of the produced text — the new entry is spliced into the
middle of the flavors dictionary, not appended after the original text. -/
theorem claim_C6_cex :
    updateFlavorFactory c6content c6flavor c6desc = some c6res ∧
    c6content.isPrefixOf c6res = false := by
  constructor
  · rfl
  · decide

/-- Claim C6 (amended): when the run changes the factory source at all, it
splices the generated entry `"flavor": \x7b"label": "description"\x7d,\n`
into the flavors-dictionary region in place, so that entry text occurs as a
substring of the result; the original source is in general not a prefix of
the result. -/
theorem claim_C6 (content flavor desc c1 : List Char)
    (h : updateFlavorFactory content flavor desc = some c1)
    (hne : c1 ≠ content) :
    isSub (newEntryStr [] flavor desc) c1 = true := by
  obtain ⟨start, e0, hm, hret, hbr⟩ := updateFF_changed content flavor desc c1 h
  rcases hbr with ⟨hchk, hc1⟩ |
    ⟨hchk, p, L, lastEntry, pos, indent, hlast, hle, hpos, hind, hc1⟩
  · exact absurd hc1 hne
  · have h1 := occursAt_mid (newEntryStr [] flavor desc)
      (content.take start ++ ((sliceAt content start (e0 - start)).take pos ++
        rstripIn [',', '\n'] lastEntry ++ [',', '\n'] ++ indent))
      (rstripWs ((sliceAt content start (e0 - start)).drop
          (pos + lastEntry.length)) ++
        ['\n'] ++ indent.take (indent.length - 4) ++
        retStr ++ '\n' :: content.drop (e0 + retStr.length))
    rw [← entry_sub_decomp, ← hc1] at h1
    exact isSub_of_occursAt _ _ _ h1

/-- Claim C6 witness: on a concrete factory source the run changes the
text, and the generated entry occurs in the result as the amended claim
states. -/
theorem claim_C6_witness :
    (updateFlavorFactory c6content c6flavor c6desc = some c6res ∧
     c6res ≠ c6content) ∧
    isSub (newEntryStr [] c6flavor c6desc) c6res = true :=
  ⟨⟨rfl, by decide⟩,
   claim_C6 c6content c6flavor c6desc c6res rfl (by decide)⟩

/-- Counterexample to claim C7 as stated: an entry excluded from the
desired components that carries the universal marker `all_flavors` is left
completely untouched — the catch-all flag is not stripped. -/
theorem claim_C7_cex :
    updateDoc [("pylint")] ("bio") c7doc = .ok (c7doc, false) ∧
    (docLinters c7doc).any (entryCarries ("all_flavors")) = true :=
  ⟨rfl, by decide⟩

/-- Claim C7 (amended): processing an entry removes only the target flavor
itself; the carry status of every other flavor name — including any
universal-install marker — is preserved exactly. -/
theorem claim_C7 (components : List String) (flavor : String)
    (e e2 : YVal) (f : Bool) (s : String) (hs : (s == flavor) = false)
    (h : processLinter components flavor e = .ok (e2, f)) :
    entryCarries s e2 = entryCarries s e :=
  processLinter_carries_other components flavor e e2 f s hs h

theorem claim_C7_witness :
    entryCarries ("all_flavors") c7out = entryCarries ("all_flavors") c7entry :=
  claim_C7 [("pylint")] ("bio") c7entry c7out c7f ("all_flavors") (by decide) (by rfl)

/-- Claim C8: a document is marked dirty (and written back) exactly when
some entry's carry status for the flavor actually changed; an untouched
document — in particular one with zero Linter Entries — is never
rewritten on disk. -/
theorem claim_C8 (components : List String) (flavor : String)
    (data data2 : YVal) (mod : Bool)
    (hwf : wfDoc data = true)
    (h : updateDoc components flavor data = .ok (data2, mod)) :
    (mod = true ↔ ∃ pr ∈ (docLinters data).zip (docLinters data2),
      entryCarries flavor pr.1 ≠ entryCarries flavor pr.2) ∧
    (mod = false → updateFile components flavor (some data) = .ok (data, false)) ∧
    (docLinters data = [] → mod = false) := by
  refine ⟨updateDoc_flag_iff components flavor data data2 mod hwf h, ?_, ?_⟩
  · intro hm
    rw [hm] at h
    rw [updateFile, h]
    rfl
  · intro hdl
    rw [updateDoc_md components flavor data data2 mod h, hdl, List.any_nil]

theorem claim_C8_witness :
    (true = true ↔ ∃ pr ∈ (docLinters w1doc).zip (docLinters w1res),
      entryCarries ("bio") pr.1 ≠ entryCarries ("bio") pr.2) ∧
    (true = false → updateFile [("pylint")] ("bio") (some w1doc) = .ok (w1doc, false)) ∧
    (docLinters w1doc = [] → true = false) :=
  claim_C8 [("pylint")] ("bio") w1doc w1res true (by decide) (by rfl)

/-- Counterexample to claim C9 as stated: a changed `descriptor_flavors`
sequence is persisted with the new flavor appended at the end, not in
sorted order. -/
theorem claim_C9_cex :
    updateDoc [("pylint")] ("aaa") c9doc = .ok (c9out, true) ∧
    flavorsOf ((docLinters c9out).getD 0 (.scalar 0)) =
      some (.list [.str ("zzz"), .str ("aaa")]) ∧
    sortedStrings (flavorStrings
      (flavorsBaseOf ((docLinters c9out).getD 0 (.scalar 0)))) = false :=
  ⟨rfl, rfl, by decide⟩

/-- Claim C9 (amended): when an entry's `descriptor_flavors` is changed by
the run, the persisted sequence is the old sequence with `flavorName`
appended at its end (insertion case) or with the first occurrence of
`flavorName` removed (removal case) — no sorting is applied. -/
theorem claim_C9 (components : List String) (flavor : String)
    (e e2 : YVal) (h : processLinter components flavor e = .ok (e2, true)) :
    flavorsOf e2 = some (YVal.list (flavorsBaseOf e ++ [YVal.str flavor])) ∨
    ∃ fl, flavorsOf e = some (YVal.list fl) ∧
      flavorsOf e2 = some (YVal.list (removeFirstStr flavor fl)) := by
  rcases processLinter_cases components flavor e (e2, true) h with
    ⟨hnm, hr⟩ | ⟨m, he, hname, hr⟩ | ⟨m, m1, he, hname, hm1, hbr⟩
  · rw [Prod.mk.injEq] at hr
    cases hr.2
  · rw [Prod.mk.injEq] at hr
    cases hr.2
  · subst he
    rcases hbr with ⟨hin, hpc, hr⟩ | ⟨hin, l, hl, hany, hr⟩ |
      ⟨hin, hpc, hr⟩ | ⟨hin, l, hl, hany, hr⟩ <;> rw [Prod.mk.injEq] at hr
    · cases hr.2
    · left
      rw [hr.1]
      simp only [flavorsOf]
      rw [mlookup_msetKey_self]
      have hbase : flavorsBaseOf (.map m) = l := by
        by_cases hdk : hasKey m ("descriptor_flavors") = true
        · have hm1m : m1 = m := by rw [hm1, if_pos hdk]
          subst hm1m
          simp only [flavorsBaseOf, flavorsOf]
          rw [hl]
        · have hm1m : m1 = msetKey m ("descriptor_flavors") (YVal.list []) := by
            rw [hm1, if_neg hdk]
          have hm1lk : mlookup m1 ("descriptor_flavors") = some (YVal.list []) := by
            rw [hm1m]; exact mlookup_msetKey_self _ _ _
          rw [hm1lk] at hl
          simp only [Option.some.injEq, YVal.list.injEq] at hl
          have hlk : mlookup m ("descriptor_flavors") = none := by
            rcases hn : mlookup m ("descriptor_flavors") with _ | v
            · rfl
            · exact absurd (hasKey_some m _ v hn) hdk
          simp only [flavorsBaseOf, flavorsOf]
          rw [hlk, ← hl]
      rw [hbase]
    · cases hr.2
    · right
      by_cases hdk : hasKey m ("descriptor_flavors") = true
      · have hm1m : m1 = m := by rw [hm1, if_pos hdk]
        subst hm1m
        refine ⟨l, ?_, ?_⟩
        · simp only [flavorsOf]
          rw [hl]
        · rw [hr.1]
          simp only [flavorsOf]
          rw [mlookup_msetKey_self]
      · exfalso
        have hm1m : m1 = msetKey m ("descriptor_flavors") (YVal.list []) := by
          rw [hm1, if_neg hdk]
        have hm1lk : mlookup m1 ("descriptor_flavors") = some (YVal.list []) := by
          rw [hm1m]; exact mlookup_msetKey_self _ _ _
        rw [hm1lk] at hl
        simp only [Option.some.injEq, YVal.list.injEq] at hl
        rw [← hl] at hany
        cases hany

theorem claim_C9_witness :
    flavorsOf c9entryOut =
      some (YVal.list (flavorsBaseOf c9entry ++ [YVal.str ("aaa")])) ∨
    ∃ fl, flavorsOf c9entry = some (YVal.list fl) ∧
      flavorsOf c9entryOut = some (YVal.list (removeFirstStr ("aaa") fl)) :=
  claim_C9 [("pylint")] ("aaa") c9entry c9entryOut (by rfl)

/-- Claim C10: every record entry lacking `descriptor_flavors` gains the
key during the scan (an empty sequence when excluded, `[flavorName]` when
desired); the key insertion by itself never dirties the document, but when
the run dirties the document the updated document — including those
inserted keys — is what is persisted to disk. -/
theorem claim_C10 (components : List String) (flavor : String)
    (data data2 : YVal) (mod : Bool)
    (h : updateDoc components flavor data = .ok (data2, mod)) :
    (∀ pr ∈ (docLinters data).zip (docLinters data2), ∀ m : List (String × YVal),
      pr.1 = YVal.map m → hasKey m ("linter_name") = true →
      hasKey m ("descriptor_flavors") = false →
      ∃ m2, pr.2 = YVal.map m2 ∧ mlookup m2 ("descriptor_flavors") =
        some (YVal.list
          (if components.any
              (fun c => isStrEq c ((mlookup m ("linter_name")).getD (.scalar 0))) = true
           then [YVal.str flavor] else []))) ∧
    ((∀ e ∈ docLinters data, entryWouldChange components flavor e = false) →
      mod = false) ∧
    (mod = true → updateFile components flavor (some data) = .ok (data2, true)) := by
  refine ⟨updateDoc_insert components flavor data data2 mod h, ?_, ?_⟩
  · intro hall
    rw [updateDoc_md components flavor data data2 mod h]
    rw [List.any_eq_false]
    intro e he
    rw [hall e he]
    exact Bool.false_ne_true
  · intro hm
    rw [hm] at h
    rw [updateFile, h]
    rfl

theorem claim_C10_witness :
    (∀ pr ∈ (docLinters w10doc).zip (docLinters w10res), ∀ m : List (String × YVal),
      pr.1 = YVal.map m → hasKey m ("linter_name") = true →
      hasKey m ("descriptor_flavors") = false →
      ∃ m2, pr.2 = YVal.map m2 ∧ mlookup m2 ("descriptor_flavors") =
        some (YVal.list
          (if [("pylint")].any
              (fun c => isStrEq c ((mlookup m ("linter_name")).getD (.scalar 0))) = true
           then [YVal.str ("bio")] else []))) ∧
    ((∀ e ∈ docLinters w10doc, entryWouldChange [("pylint")] ("bio") e = false) →
      w10mod = false) ∧
    (w10mod = true → updateFile [("pylint")] ("bio") (some w10doc) = .ok (w10res, true)) :=
  claim_C10 [("pylint")] ("bio") w10doc w10res w10mod (by rfl)

end FlavorGen
